import Mathlib

/-!
Verification of the live-collab-editor core: the AI service text-transformation
engine (src/src/services/aiService.js), provider selection, the simulated chat
engine, and the App-level sync message handling (src/src/App.js).

JS strings are modelled as `List Char`.  The JS regular-expression replaces used
by the source are all of simple shapes (literal words with `\b` anchors, the
`i` and `g` flags, runs of a character class, ...) and are modelled by explicit
scanners that mirror JS `String.prototype.replace` semantics: scanning is
left-to-right on the original string, matches never overlap, replacement text is
not rescanned, and `\b` boundaries are judged on the original characters.
Word characters are `[A-Za-z0-9_]` as in JS `\b`; case-insensitive matching is
ASCII case folding, which coincides with JS `/i` canonicalization for the ASCII
patterns appearing in the source.
-/

/-- JS word-character test on a code point (`\w` = `[A-Za-z0-9_]`). -/
def natWord (n : Nat) : Bool :=
  (97 ≤ n && n ≤ 122) || (65 ≤ n && n ≤ 90) || (48 ≤ n && n ≤ 57) || (n == 95)

/-- JS word-character test on a character. -/
def wordChar (c : Char) : Bool := natWord c.toNat

/-- ASCII lower-casing on code points (used for `/i` canonicalization). -/
def lowNat (n : Nat) : Nat := if 65 ≤ n ∧ n ≤ 90 then n + 32 else n

/-- Character comparison: case-insensitive (ASCII folding) when `ci` is set. -/
def chEq (ci : Bool) (a b : Char) : Bool :=
  if ci then lowNat a.toNat == lowNat b.toNat else a == b

/-- Word-ness of an optional character; a string edge counts as non-word. -/
def wordOpt : Option Char → Bool
  | none => false
  | some c => wordChar c

/-- JS `\b`: a boundary sits between two positions iff exactly one side is a
word character (string edges are non-word). -/
def bdry (l r : Option Char) : Bool := wordOpt l != wordOpt r

/-- `pat` matches (character-wise, possibly case-insensitively) at the front
of `s`. -/
def ciLeads (ci : Bool) : List Char → List Char → Bool
  | [], _ => true
  | _ :: _, [] => false
  | p :: ps, c :: cs => chEq ci p c && ciLeads ci ps cs

/-- A `\bpat\b` match begins at the current scan position: `prev` is the
character just before the position in the original string (`none` at the
start).  When `wb` is false the boundary tests are skipped (plain substring
pattern). -/
def matchesAt (ci wb : Bool) (pat : List Char) (prev : Option Char) (s : List Char) : Bool :=
  !pat.isEmpty && ciLeads ci pat s &&
    (!wb || (bdry prev s.head? && bdry ((s.take pat.length).getLast?) ((s.drop pat.length).head?)))

/-- Scanner for JS `str.replace(/\bpat\b/g[i], repl)` (literal `pat`): walk the
original string, emit `repl` at each match and resume after the matched
characters, otherwise copy one character.  `skip` counts the characters of the
current match still to be consumed silently (the replacement text was already
emitted), which keeps the recursion structural on the string. -/
def replaceAllGo (ci wb : Bool) (pat repl : List Char) :
    Nat → Option Char → List Char → List Char
  | _, _, [] => []
  | skip + 1, _, c :: cs => replaceAllGo ci wb pat repl skip (some c) cs
  | 0, prev, c :: cs =>
    if matchesAt ci wb pat prev (c :: cs) then
      repl ++ replaceAllGo ci wb pat repl (pat.length - 1) (some c) cs
    else
      c :: replaceAllGo ci wb pat repl 0 (some c) cs

/-- JS `str.replace(/pat/flags, repl)` for a literal pattern. -/
def replaceAll (ci wb : Bool) (pat repl s : List Char) : List Char :=
  replaceAllGo ci wb pat repl 0 none s

/-- No match of `\bpat\b` starts at any position of `s` (with `prev` the
character before `s`). -/
def cleanFrom (ci wb : Bool) (pat : List Char) (prev : Option Char) : List Char → Bool
  | [] => true
  | c :: cs => !matchesAt ci wb pat prev (c :: cs) && cleanFrom ci wb pat (some c) cs

/-- JS `hay.includes(nee)`. -/
def listContains (hay nee : List Char) : Bool :=
  if nee.isPrefixOf hay then true
  else
    match hay with
    | [] => false
    | _ :: t => listContains t nee

/-- ASCII lower-casing of a character (models JS `toLowerCase` on the ASCII
range, which is all the source's trigger phrases use). -/
def lowChar (c : Char) : Char := Char.ofNat (lowNat c.toNat)

/-- JS `s.toLowerCase()`. -/
def toLowerList (s : List Char) : List Char := s.map lowChar

/-- ASCII upper-casing of a character (for `p2.toUpperCase()`). -/
def upChar (c : Char) : Char :=
  if 97 ≤ c.toNat ∧ c.toNat ≤ 122 then Char.ofNat (c.toNat - 32) else c

/-- JS `\s` whitespace class (ASCII part, which is what the repository's
documents use). -/
def isWs (c : Char) : Bool :=
  c = ' ' || c = '\t' || c = '\n' || c = '\r' || c = '\x0b' || c = '\x0c'

/-- Sentence terminator class `[.!?]`. -/
def isTermCh (c : Char) : Bool := c = '.' || c = '!' || c = '?'

/-- JS `s.trim()` (strip whitespace from both ends). -/
def trimLeftC (s : List Char) : List Char := s.dropWhile isWs

def trimRightC (s : List Char) : List Char := (s.reverse.dropWhile isWs).reverse

def trimC (s : List Char) : List Char := trimRightC (trimLeftC s)

/-- JS `s.split(/X+/)` for a character class `X`: split on maximal runs of
class characters.  `inRun` records that the previous character belonged to the
current separator run (so further run characters are absorbed).  `""` splits
to `[""]` and a trailing separator produces a trailing empty segment, exactly
as in JS. -/
def splitRunGo (cls : Char → Bool) : Bool → List Char → List (List Char)
  | _, [] => [[]]
  | inRun, c :: cs =>
    if cls c then
      if inRun then splitRunGo cls true cs
      else [] :: splitRunGo cls true cs
    else
      match splitRunGo cls false cs with
      | [] => [[c]]
      | h :: t => (c :: h) :: t

/-- JS `s.split(/[.!?]+/)`. -/
def jsSplitTerm (s : List Char) : List (List Char) := splitRunGo isTermCh false s

/-- JS `s.split(/\s+/)` (used by `summarizeText`). -/
def jsSplitWs (s : List Char) : List (List Char) := splitRunGo isWs false s

/-- The sentence list used throughout the engine:
`text.split(/[.!?]+/).filter(s => s.trim())` — split segments whose trim is
non-empty (JS string truthiness). -/
def sentencesOf (text : List Char) : List (List Char) :=
  (jsSplitTerm text).filter (fun s => !(trimC s).isEmpty)

/-- JS `array.filter((s, i) => p i)`: keep elements whose index satisfies `p`,
counting from `i0`. -/
def jsFilterIdx (p : Nat → Bool) : Nat → List (List Char) → List (List Char)
  | _, [] => []
  | i, x :: xs =>
    if p i then x :: jsFilterIdx p (i + 1) xs else jsFilterIdx p (i + 1) xs

/-- `Math.ceil(n * 0.7)` for the natural sentence counts reachable here (the
double rounding of `0.7 * n` never crosses an integer for such `n`). -/
def ceil70 (n : Nat) : Nat := (7 * n + 9) / 10

/-- Collapse maximal runs of characters satisfying `cls` to the single
character `r`: JS `s.replace(/X+/g, 'r')` for a character class `X`.  `inRun`
marks that the previous character was part of the run being collapsed. -/
def collapseRun (cls : Char → Bool) (r : Char) : Bool → List Char → List Char
  | _, [] => []
  | inRun, c :: cs =>
    if cls c then
      if inRun then collapseRun cls r true cs
      else r :: collapseRun cls r true cs
    else c :: collapseRun cls r false cs

/-- JS `array.join(sep)`. -/
def joinSep (sep : List Char) : List (List Char) → List Char
  | [] => []
  | [x] => x
  | x :: y :: l => x ++ sep ++ joinSep sep (y :: l)

/-! ### TextTransformEngine: the deterministic edit functions of `AIService` -/

/-- Table lookup on an association list of words (keys stored lower-case). -/
def lookupWord (tbl : List (List Char × List Char)) (w : List Char) : Option (List Char) :=
  match tbl with
  | [] => none
  | (k, v) :: t => if k = w then some v else lookupWord t w

/-- `shortenText`: split into sentences; one sentence or fewer is returned
unchanged; otherwise keep the first `Math.ceil(0.7 * N)` sentences, trimmed,
rejoined with `'. '` and a trailing `'.'`. -/
def shortenText (text : List Char) : List Char :=
  let sentences := sentencesOf text
  if sentences.length ≤ 1 then text
  else
    joinSep ". ".data
      (jsFilterIdx (fun i => i < ceil70 sentences.length) 0 (sentences.map trimC)) ++ ['.']

/-- The `expansions` table of `lengthenText`. -/
def expansionsTbl : List (List Char × List Char) :=
  [("good".data, "excellent and well-executed".data),
   ("bad".data, "problematic and concerning".data),
   ("nice".data, "pleasant and appealing".data),
   ("great".data, "outstanding and remarkable".data)]

/-- Scanner for `text.replace(/\b(good|bad|nice|great)\b/gi, m => expansions[m.toLowerCase()] || m)`:
alternatives are tried left to right at each position; every alternative has a
table entry, so the matched word is replaced by its expansion. -/
def altWordGo (tbl : List (List Char × List Char)) (prev : Option Char) :
    List Char → List Char
  | [] => []
  | c :: cs =>
    match tbl.find? (fun kv => matchesAt true true kv.1 prev (c :: cs)) with
    | some kv =>
      kv.2 ++ altWordGo tbl (((c :: cs).take kv.1.length).getLast?) (cs.drop (kv.1.length - 1))
    | none => c :: altWordGo tbl (some c) cs
  termination_by s => s.length
  decreasing_by
    · simp only [List.length_drop, List.length_cons]; omega
    · simp only [List.length_cons]; omega

/-- `lengthenText`: expand weak adjectives, insert `Furthermore, ` after each
`'. '`, expand `this`, and append the fixed closing sentence. -/
def lengthenText (text : List Char) : List Char :=
  let enhanced :=
    replaceAll true true "this".data "this particular aspect".data
      (replaceAll false false ". ".data ". Furthermore, ".data
        (altWordGo expansionsTbl none text))
  enhanced ++ " This demonstrates the complexity and importance of the matter at hand.".data

/-- The `intensifiers` table of `improveWriting`. -/
def intensifiersTbl : List (List Char × List Char) :=
  [("good".data, "exceptional".data), ("bad".data, "terrible".data),
   ("big".data, "enormous".data), ("small".data, "tiny".data),
   ("important".data, "crucial".data), ("difficult".data, "challenging".data)]

/-- Scanner for `text.replace(/\bvery (\w+)/gi, (m, word) => intensifiers[word.toLowerCase()] || m)`:
a match is `very ` plus a maximal non-empty run of word characters; the whole
match becomes the table entry for the captured word, or stays unchanged when
the word has no entry.  Scanning resumes after the match either way. -/
def veryGo : Nat → Option Char → List Char → List Char
  | _, _, [] => []
  | skip + 1, _, c :: cs => veryGo skip (some c) cs
  | 0, prev, c :: cs =>
    let w := (cs.drop 4).takeWhile wordChar
    if bdry prev (some c) && ciLeads true "very ".data (c :: cs) && !w.isEmpty then
      (match lookupWord intensifiersTbl (toLowerList w) with
       | some repl => repl
       | none => (c :: cs).take 5 ++ w) ++ veryGo (4 + w.length) (some c) cs
    else c :: veryGo 0 (some c) cs

/-- Scanner for `text.replace(/\bthing(s?)\b/gi, 'element$1')`: after a
case-insensitive `thing`, an optional `s` is taken greedily; the trailing `\b`
is then required (no match survives backtracking when it fails, because the
rejected `s` is itself a word character). -/
def thingGo : Nat → Option Char → List Char → List Char
  | _, _, [] => []
  | skip + 1, _, c :: cs => thingGo skip (some c) cs
  | 0, prev, c :: cs =>
    if bdry prev (some c) && ciLeads true "thing".data (c :: cs) then
      match (c :: cs).drop 5 with
      | d :: ds =>
        if chEq true d 's' && bdry (some d) ds.head? then
          ("element".data ++ [d]) ++ thingGo 5 (some c) cs
        else if !chEq true d 's' && bdry (((c :: cs).take 5).getLast?) (some d) then
          "element".data ++ thingGo 4 (some c) cs
        else c :: thingGo 0 (some c) cs
      | [] => "element".data ++ thingGo 4 (some c) cs
    else c :: thingGo 0 (some c) cs

/-- `improveWriting`: strengthen `very X`, then `thing(s)` → `element(s)`,
`stuff` → `material`, `got` → `obtained`, `a lot of` → `numerous`. -/
def improveWriting (text : List Char) : List Char :=
  replaceAll true true "a lot of".data "numerous".data
    (replaceAll true true "got".data "obtained".data
      (replaceAll true true "stuff".data "material".data
        (thingGo 0 none (veryGo 0 none text))))

/-- The ordered substitution chain of `makeFormal`. -/
def formalSubs : List (List Char × List Char) :=
  [("can't".data, "cannot".data),
   ("won't".data, "will not".data),
   ("doesn't".data, "does not".data),
   ("isn't".data, "is not".data),
   ("I think".data, "It is my opinion that".data),
   ("maybe".data, "perhaps".data),
   ("okay".data, "acceptable".data),
   ("kind of".data, "somewhat".data),
   ("guys".data, "individuals".data)]

/-- The ordered substitution chain of `makeCasual`. -/
def casualSubs : List (List Char × List Char) :=
  [("cannot".data, "can't".data),
   ("will not".data, "won't".data),
   ("does not".data, "doesn't".data),
   ("is not".data, "isn't".data),
   ("It is my opinion that".data, "I think".data),
   ("perhaps".data, "maybe".data),
   ("acceptable".data, "okay".data),
   ("somewhat".data, "kind of".data),
   ("individuals".data, "people".data)]

/-- Apply a chain of `\b`-anchored case-insensitive global replaces in order. -/
def applySubs (subs : List (List Char × List Char)) (s : List Char) : List Char :=
  subs.foldl (fun t pr => replaceAll true true pr.1 pr.2 t) s

/-- `makeFormal`: the nine chained case-insensitive whole-word replaces. -/
def makeFormal (text : List Char) : List Char := applySubs formalSubs text

/-- `makeCasual`: the nine chained case-insensitive whole-word replaces. -/
def makeCasual (text : List Char) : List Char := applySubs casualSubs text

/-- The fixed table header emitted by `convertToTable`. -/
def tableHeader : List Char := "| Item | Description |\n|------|-------------|\n".data

/-- One data row of `convertToTable`: `| ${i + 1} | ${trimmed} |\n`. -/
def tableRow (i : Nat) (s : List Char) : List Char :=
  "| ".data ++ (Nat.repr (i + 1)).data ++ " | ".data ++ trimC s ++ " |\n".data

/-- `convertToTable`: with fewer than two sentences return the input; otherwise
accumulate the header and one row per sentence (`forEach` with `+=`). -/
def convertToTable (text : List Char) : List Char :=
  let sentences := sentencesOf text
  if sentences.length < 2 then text
  else sentences.enum.foldl (fun table p => table ++ tableRow p.1 p.2) tableHeader

/-- `convertToList`: bullet per sentence, joined with newlines. -/
def convertToList (text : List Char) : List Char :=
  let sentences := sentencesOf text
  if sentences.length < 2 then text
  else joinSep ['\n'] (sentences.map (fun s => "• ".data ++ trimC s))

/-- `summarizeText`: short texts unchanged; otherwise first sentence plus up to
five words longer than five characters. -/
def summarizeText (text : List Char) : List Char :=
  let words := jsSplitWs text
  if words.length ≤ 20 then text
  else
    let firstSentence := trimC ((jsSplitTerm text).headD [])
    let keyWords :=
      joinSep ", ".data ((words.filter (fun w => 5 < w.length)).take 5)
    "Summary: ".data ++ firstSentence ++ ". Key terms: ".data ++ keyWords ++ ['.']

/-- `customEdit`: keyword-sniff the instruction; default to `improveWriting`. -/
def customEdit (text promptText : List Char) : List Char :=
  let lowerPrompt := toLowerList promptText
  if listContains lowerPrompt "professional".data || listContains lowerPrompt "formal".data then
    makeFormal text
  else if listContains lowerPrompt "casual".data || listContains lowerPrompt "friendly".data then
    makeCasual text
  else if listContains lowerPrompt "shorter".data || listContains lowerPrompt "concise".data then
    shortenText text
  else if listContains lowerPrompt "longer".data || listContains lowerPrompt "detail".data then
    lengthenText text
  else improveWriting text

/-- Scanner for the sentence-capitalization pass
`improved.replace(/(^|[.!?]\s+)([a-z])/g, (m, p1, p2) => p1 + p2.toUpperCase())`
at positions after the start of the string: a terminator followed by a
non-empty whitespace run followed by a lower-case letter keeps the terminator
and whitespace and upper-cases the letter. -/
def isLowerAZ (c : Char) : Bool := decide (97 ≤ c.toNat ∧ c.toNat ≤ 122)

/-- One-character state machine for the pass away from position zero: state
`1` means the previous character was a terminator, state `2` means the scan is
inside a whitespace run that directly follows a terminator (so a lower-case
letter here completes a match and is upper-cased), state `0` anything else.
Equivalent to the regex scan because terminators, whitespace and lower-case
letters are disjoint classes. -/
def capSentGo : Nat → List Char → List Char
  | _, [] => []
  | st, c :: cs =>
    if (st == 1 || st == 2) && isWs c then c :: capSentGo 2 cs
    else if st == 2 && isLowerAZ c then upChar c :: capSentGo 0 cs
    else c :: capSentGo (if isTermCh c then 1 else 0) cs

/-- The whole capitalization pass, including the `^` alternative at position
zero. -/
def capSentences (s : List Char) : List Char :=
  match s with
  | [] => []
  | c :: cs =>
    if isLowerAZ c then upChar c :: capSentGo 0 cs
    else capSentGo 0 (c :: cs)

/-- Scanner for `text.replace(/\bw1\s+w2\b/g, repl)` (the `was were`,
`their they`, `your you` fixes): a word-boundary, the literal `w1`, a
non-empty whitespace run, the literal `w2`, and a closing word-boundary. -/
def gapPairGo (w1 w2 repl : List Char) : Nat → Option Char → List Char → List Char
  | _, _, [] => []
  | skip + 1, _, c :: cs => gapPairGo w1 w2 repl skip (some c) cs
  | 0, prev, c :: cs =>
    let ws := ((c :: cs).drop w1.length).takeWhile isWs
    let rest2 := ((c :: cs).drop w1.length).dropWhile isWs
    if bdry prev (some c) && ciLeads false w1 (c :: cs) && !ws.isEmpty &&
        ciLeads false w2 rest2 &&
        bdry ((rest2.take w2.length).getLast?) ((rest2.drop w2.length).head?) then
      repl ++ gapPairGo w1 w2 repl (w1.length + ws.length + w2.length - 1) (some c) cs
    else c :: gapPairGo w1 w2 repl 0 (some c) cs

/-- `improveText`: the grammar/style clean-up used by the simulated chat
engine and by `getTextEdit`'s default branch.  Empty text (JS falsy) is
returned as is. -/
def improveText (text : List Char) : List Char :=
  if text.isEmpty then text
  else
    let improved :=
      trimC (collapseRun (fun c => c = ',') ',' false
        (collapseRun (fun c => c = '!') '!' false
          (collapseRun (fun c => c = '?') '?' false
            (collapseRun (fun c => c = '.') '.' false
              (collapseRun isWs ' ' false
                (replaceAll false true ['i'] ['I'] text))))))
    let improved2 := capSentences improved
    gapPairGo "your".data "you".data "you".data 0 none
      (gapPairGo "their".data "they".data "they".data 0 none
        (gapPairGo "was".data "were".data "were".data 0 none
          (replaceAll false true "nad".data "and".data
            (replaceAll false true "teh".data "the".data improved2))))

/-- Scanner for `formatted.replace(/\.([A-Z])/g, '. $1')`. -/
def dotCapGo : List Char → List Char
  | [] => []
  | [c] => [c]
  | c :: d :: ds =>
    if c = '.' ∧ 65 ≤ d.toNat ∧ d.toNat ≤ 90 then '.' :: ' ' :: d :: dotCapGo ds
    else c :: dotCapGo (d :: ds)

/-- Scanner for `formatted.replace(/\n{3,}/g, '\n\n')`: runs of at least three
newlines collapse to two, shorter runs are copied. -/
def nlRunsGo : List Char → List Char
  | [] => []
  | c :: cs =>
    if c = '\n' then
      let run := cs.takeWhile (fun x => x = '\n')
      if 2 ≤ run.length then '\n' :: '\n' :: nlRunsGo (cs.dropWhile (fun x => x = '\n'))
      else (c :: run) ++ nlRunsGo (cs.dropWhile (fun x => x = '\n'))
    else c :: nlRunsGo cs
  termination_by s => s.length
  decreasing_by
    all_goals simp only [List.length_cons]
    all_goals
      first
      | omega
      | (have hws := (List.dropWhile_suffix (l := cs) (fun x => x = '\n')).length_le
         omega)

/-- Scanner for `formatted.replace(/^(-|\*)\s*(.+)$/gm, '• $2')`.  `atStart`
records whether the scan position is at the start of a line (a `^` anchor in
`m` mode).  After `-`/`*`, the greedy `\s*` may run across newlines; `(.+)$`
then needs a non-empty newline-free stretch ending at a line end, backtracking
into the trailing non-newline whitespace when nothing else is available. -/
def bulletsScan (atStart : Bool) : List Char → List Char
  | [] => []
  | c :: cs =>
    if atStart && (c = '-' || c = '*') then
      let r := cs.dropWhile isWs
      let seg := r.takeWhile (fun x => !(x = '\n'))
      if !seg.isEmpty then
        "• ".data ++ seg ++ bulletsScan false (r.dropWhile (fun x => !(x = '\n')))
      else
        let w := cs.takeWhile isWs
        let w2 := (w.reverse.takeWhile (fun x => isWs x && !(x = '\n'))).reverse
        if !w2.isEmpty then "• ".data ++ w2 ++ bulletsScan false r
        else c :: bulletsScan (c = '\n') cs
    else c :: bulletsScan (c = '\n') cs
  termination_by s => s.length
  decreasing_by
    all_goals simp only [List.length_cons]
    · have h1 := (List.dropWhile_suffix (l := cs) isWs).length_le
      have h2 := (List.dropWhile_suffix (l := cs.dropWhile isWs) (fun x => !(x = '\n'))).length_le
      omega
    · have h1 := (List.dropWhile_suffix (l := cs) isWs).length_le
      omega
    · omega
    · omega

/-- `formatDocument`: spacing after periods, paragraph-break normalization,
bullet rewriting, then a `# ` title prefix when the first line is short and
dot-free. -/
def formatDocument (text : List Char) : List Char :=
  if text.isEmpty then text
  else
    let formatted := bulletsScan true (nlRunsGo (dotCapGo text))
    let lines := formatted.splitOn '\n'
    match lines with
    | [] => formatted
    | l0 :: rest =>
      if l0.length < 60 && !listContains l0 ['.'] then
        joinSep ['\n'] (("# ".data ++ l0) :: rest)
      else formatted

/-! ### AIService: provider selection, simulated chat, and the two entry
points `getChatResponse` / `getTextEdit` -/

/-- The result shape resolved by the chat paths: `{action, message,
newContent?}`. -/
structure ChatTurn where
  action : List Char
  message : List Char
  newContent : Option (List Char)
deriving DecidableEq, Repr

/-- The result shape resolved by `getTextEdit`. -/
structure EditResult where
  originalText : List Char
  editedText : List Char
  message : List Char
  editType : List Char
deriving DecidableEq, Repr

/-- Truthiness of the credential environment: one flag per networked provider
(`!!key`, with absent or empty keys falsy). -/
structure ProviderKeys where
  openaiKey : Bool
  claudeKey : Bool
  huggingFaceKey : Bool
  groqKey : Bool
deriving DecidableEq, Repr

/-- The fixed provider priority list of the constructor. -/
def providersList : List (List Char) :=
  ["openai".data, "claude".data, "groq".data, "huggingface".data, "simulation".data]

/-- `isProviderAvailable`: the credential switch; `simulation` is always
available, unknown names never are. -/
def isProviderAvailable (keys : ProviderKeys) (provider : List Char) : Bool :=
  if provider = "openai".data then keys.openaiKey
  else if provider = "claude".data then keys.claudeKey
  else if provider = "huggingface".data then keys.huggingFaceKey
  else if provider = "groq".data then keys.groqKey
  else if provider = "simulation".data then true
  else false

/-- `detectAvailableProvider`: scan the priority list, keep the first available
provider; the initial `currentProvider = 'simulation'` default remains when the
loop never fires. -/
def detectAvailableProvider (keys : ProviderKeys) : List Char :=
  match providersList.find? (isProviderAvailable keys) with
  | some p => p
  | none => "simulation".data

/-- The ten canned chat responses of the simulation engine (indexed by the
sampled random number). -/
def cannedResponses : List (List Char) :=
  (["I'm here to help! You can ask me to fix grammar, improve writing, add content, or format your document.",
    "That's an interesting question! I can also help you edit your document directly. Try asking me to 'fix grammar' or 'add an introduction'.",
    "I'd be happy to assist you! Some things I can do: improve text, add summaries, fix formatting, or just chat about your document.",
    "Great question! I can provide suggestions or directly modify your document. Just let me know what you need - I can add content, fix grammar, or organize your text.",
    "I'm your AI writing assistant! I can help improve your document's grammar, add new content, create summaries, or answer any questions you have.",
    "Feel free to ask me anything! I can also edit your document directly - try asking me to 'improve the writing' or 'add a conclusion'.",
    "I'm designed to help with both conversation and document editing. What would you like me to help you with today?",
    "That's a good point! I can also assist with your document - whether you need grammar fixes, additional content, or better formatting.",
    "Interesting! While we chat, remember I can also directly modify your document. Try commands like 'add an introduction' or 'fix the grammar'.",
    "I understand! Let me know if you'd like me to make any changes to your document. I can improve writing, add content, or organize the text better."
   ] : List String).map String.data

/-- The three canned content additions. -/
def introContent : List Char :=
  "\n\n## Introduction\n\nThis document serves as a comprehensive guide that aims to provide valuable insights and information on the topic at hand. Through careful analysis and research, we present the following findings and recommendations.".data

def conclusionContent : List Char :=
  "\n\n## Conclusion\n\nIn conclusion, the points discussed above highlight the importance of this topic and its implications for future development. We recommend continued research and implementation of the strategies outlined in this document.".data

def genericContent : List Char :=
  "\n\n[AI Generated Content]\nThis additional content has been generated based on your request. It provides supplementary information that complements the existing text and enhances the overall quality of the document.".data

/-- `simulateAIResponse`: the keyword-dispatched simulated chat engine.  The
promise always resolves; `rand` models the sampled random number used to pick
a canned response in the default branch (`Math.floor(Math.random() * length)`).
The artificial 1–3 s delay does not affect the resolved value and is not
modelled. -/
def simulateAIResponse (userMessage currentDocument : List Char) (rand : Nat) : ChatTurn :=
  let lowerMessage := toLowerList userMessage
  if listContains lowerMessage "fix grammar".data || listContains lowerMessage "correct".data ||
      listContains lowerMessage "improve".data then
    { action := "modify".data
      message := "I've improved the grammar and style of your document!".data
      newContent := some (improveText currentDocument) }
  else if listContains lowerMessage "add".data &&
      (listContains lowerMessage "content".data || listContains lowerMessage "paragraph".data ||
       listContains lowerMessage "text".data) then
    let addedContent :=
      if listContains lowerMessage "introduction".data || listContains lowerMessage "intro".data then
        introContent
      else if listContains lowerMessage "conclusion".data then conclusionContent
      else genericContent
    { action := "modify".data
      message := "I've added relevant content to your document!".data
      newContent := some (currentDocument ++ addedContent) }
  else if listContains lowerMessage "summarize".data || listContains lowerMessage "summary".data then
    if !(trimC currentDocument).isEmpty then
      let summary :=
        "\n\n## Summary\nThis document contains ".data ++
          (Nat.repr (currentDocument.splitOn ' ').length).data ++
          " words covering the main topics discussed above. The key points have been organized to provide a clear understanding of the subject matter.".data
      { action := "modify".data
        message := "I've added a summary to your document!".data
        newContent := some (currentDocument ++ summary) }
    else
      { action := "chat".data
        message := "There's no content to summarize yet. Please add some text first, and I'll be happy to create a summary!".data
        newContent := none }
  else if listContains lowerMessage "format".data || listContains lowerMessage "organize".data then
    { action := "modify".data
      message := "I've improved the formatting and organization of your document!".data
      newContent := some (formatDocument currentDocument) }
  else
    { action := "chat".data
      message := cannedResponses.getD (rand % cannedResponses.length) []
      newContent := none }

/-- `getTextEdit`: the switch over the requested edit type; every branch
assigns both `editedText` and `message`, and the resolved object echoes the
selection and the edit type.  The promise always resolves (the artificial
delay is not modelled). -/
def getTextEdit (editType selectedText customPrompt : List Char) : EditResult :=
  let pair : List Char × List Char :=
    if editType = "shorten".data then
      (shortenText selectedText, "Text shortened while preserving key meaning".data)
    else if editType = "lengthen".data then
      (lengthenText selectedText, "Text expanded with additional detail".data)
    else if editType = "improve".data then
      (improveWriting selectedText, "Writing quality improved".data)
    else if editType = "formal".data then
      (makeFormal selectedText, "Text made more formal".data)
    else if editType = "casual".data then
      (makeCasual selectedText, "Text made more casual".data)
    else if editType = "table".data then
      (convertToTable selectedText, "Converted to table format".data)
    else if editType = "list".data then
      (convertToList selectedText, "Converted to list format".data)
    else if editType = "summarize".data then
      (summarizeText selectedText, "Text summarized".data)
    else if editType = "custom".data then
      (customEdit selectedText customPrompt,
       "Custom edit applied: ".data ++ customPrompt)
    else (improveText selectedText, "Text improved".data)
  { originalText := selectedText
    editedText := pair.1
    message := pair.2
    editType := editType }

/-- The outcome of the active provider's network call, as observed by
`getChatResponse`'s `try`: either a resolved `ChatTurn` or a rejection/throw
carrying some error value. -/
def ProviderOutcome := Except (List Char) ChatTurn

/-- `getChatResponse`: `try { return await this.callAI(...) } catch { return
this.simulateAIResponse(message, documentContent) }` — the provider call's
outcome is abstracted as `call`. -/
def getChatResponse (message documentContent : List Char) (call : ProviderOutcome)
    (rand : Nat) : ChatTurn :=
  match call with
  | Except.ok turn => turn
  | Except.error _ => simulateAIResponse message documentContent rand

/-- A well-formed chat result: the action tag is one of the two known tags and
`newContent` is present exactly on `modify`. -/
def ChatTurnValid (t : ChatTurn) : Prop :=
  (t.action = "modify".data ∨ t.action = "chat".data) ∧
    (t.newContent.isSome ↔ t.action = "modify".data)

/-! ### App-level pieces: the sync message handler and the edit dispatch guard
(src/src/App.js) -/

/-- An inbound WebSocket event as seen by `newSocket.onmessage`: either a
parsed `{type, data}` object or an unparseable frame (the `catch` branch). -/
inductive SyncMsg where
  | parsed (type data : List Char) : SyncMsg
  | malformed : SyncMsg
deriving DecidableEq, Repr

/-- The effect of one inbound message on the local `document` state:
`init` and `update` both call `setDocument(message.data)`, `chat` is only
logged, anything else (including parse failures) leaves the state alone. -/
def syncStep (doc : List Char) (msg : SyncMsg) : List Char :=
  match msg with
  | SyncMsg.parsed type data =>
    if type = "init".data then data
    else if type = "update".data then data
    else doc
  | SyncMsg.malformed => doc

/-- `handleEditWithAI` only invokes `aiService.getTextEdit` when the edit type
is not `custom` (a custom edit waits for the instruction from the modal). -/
def handleEditWithAICallsService (editType : List Char) : Bool :=
  !(editType = "custom".data)

/-- The last character of `w`, or `v` when `w` is empty: the character
preceding a scan position that sits right after `w`. -/
def lastOpt (w : List Char) (v : Option Char) : Option Char :=
  match w.getLast? with
  | some a => some a
  | none => v

/-- The first character, if any, is a non-word character. -/
def headNonWord (s : List Char) : Prop := ∀ c, s.head? = some c → wordChar c = false

/-- A non-empty word that begins and ends with word characters (true of every
pattern and every replacement in the two substitution tables). -/
def wordEnds (p : List Char) : Prop :=
  p ≠ [] ∧ wordChar (p.getD 0 ' ') = true ∧ wordChar (p.getD (p.length - 1) ' ') = true

/-- No new occurrence of `\bq\b` can overlap an inserted copy of the
replacement text `r`: no alignment of `q` against `r` is simultaneously
character-compatible (case-insensitively) and boundary-compatible.  The first
conjunct covers occurrences that start before the replacement block (`q`
starts `L` characters to its left, its character at index `L - 1` sitting on
the non-word flank), the second occurrences that start inside it at offset
`d`.  Positions beyond the block only ever see a non-word first character, so
only the listed conditions are needed. -/
def safeCross (ci : Bool) (r q : List Char) : Prop :=
  (∀ L, L < q.length → 1 ≤ L →
    ¬(wordChar (q.getD (L - 1) ' ') = false ∧
      (∀ i, i < q.length → L ≤ i → i - L < r.length →
        chEq ci (q.getD i ' ') (r.getD (i - L) ' ') = true) ∧
      (q.length - L < r.length → wordChar (r.getD (q.length - L) ' ') = false) ∧
      (r.length < q.length - L → wordChar (q.getD (L + r.length) ' ') = false))) ∧
  (∀ d, d < r.length →
    ¬((1 ≤ d → wordChar (r.getD (d - 1) ' ') = false) ∧
      (∀ i, i < q.length → d + i < r.length →
        chEq ci (q.getD i ' ') (r.getD (d + i) ' ') = true) ∧
      (d + q.length < r.length → wordChar (r.getD (d + q.length) ' ') = false) ∧
      (r.length < d + q.length → wordChar (q.getD (r.length - d) ' ') = false)))

/-- A substitution table is safe when every pattern and replacement is a
word-edged literal and no replacement can spawn an occurrence of any pattern
of the table (including its own). -/
def tableGood (subs : List (List Char × List Char)) : Prop :=
  (∀ pr ∈ subs, wordEnds pr.1 ∧ wordEnds pr.2) ∧
  (∀ pr ∈ subs, ∀ qr ∈ subs, safeCross true pr.2 qr.1)

set_option synthInstance.maxSize 5000 in
instance wordEndsDec (p : List Char) : Decidable (wordEnds p) := by
  unfold wordEnds
  infer_instance

set_option synthInstance.maxSize 5000 in
instance safeCrossDec (ci : Bool) (r q : List Char) : Decidable (safeCross ci r q) := by
  unfold safeCross
  infer_instance

set_option synthInstance.maxSize 5000 in
instance tableGoodDec (subs : List (List Char × List Char)) : Decidable (tableGood subs) := by
  unfold tableGood
  infer_instance

/-! ### Helper lemmas about the service layer -/

/-- Every branch of the simulated chat engine resolves a well-formed turn. -/
theorem simulateAIResponse_valid (msg doc : List Char) (rand : Nat) :
    ChatTurnValid (simulateAIResponse msg doc rand) := by
  unfold simulateAIResponse ChatTurnValid
  dsimp only
  split_ifs <;>
    refine ⟨by first | exact Or.inl rfl | exact Or.inr rfl, ?_⟩ <;>
    simp

/-! ### Claim theorems -/

/-- C1: for every message and document and any provider failure, the chat
entry point resolves (with the simulated chat fallback, a well-formed
`ChatTurn`), and the edit entry point resolves with a result object whose
`editedText` is always one of the engine's transforms of the selection (in
particular a defined string) — neither entry point can reject. -/
theorem claim_C1_never_rejects :
    ∀ (message documentContent err : List Char) (rand : Nat)
      (editType selectedText customPrompt : List Char),
      getChatResponse message documentContent (Except.error err) rand =
        simulateAIResponse message documentContent rand ∧
      ChatTurnValid (getChatResponse message documentContent (Except.error err) rand) ∧
      ((getTextEdit editType selectedText customPrompt).editedText = shortenText selectedText ∨
       (getTextEdit editType selectedText customPrompt).editedText = lengthenText selectedText ∨
       (getTextEdit editType selectedText customPrompt).editedText = improveWriting selectedText ∨
       (getTextEdit editType selectedText customPrompt).editedText = makeFormal selectedText ∨
       (getTextEdit editType selectedText customPrompt).editedText = makeCasual selectedText ∨
       (getTextEdit editType selectedText customPrompt).editedText = convertToTable selectedText ∨
       (getTextEdit editType selectedText customPrompt).editedText = convertToList selectedText ∨
       (getTextEdit editType selectedText customPrompt).editedText = summarizeText selectedText ∨
       (getTextEdit editType selectedText customPrompt).editedText =
         customEdit selectedText customPrompt ∨
       (getTextEdit editType selectedText customPrompt).editedText = improveText selectedText) := by
  intro message documentContent err rand editType selectedText customPrompt
  refine ⟨rfl, simulateAIResponse_valid message documentContent rand, ?_⟩
  unfold getTextEdit
  dsimp only
  split_ifs <;> simp

/-- C3: an inbound `update` overwrites the local document unconditionally
(pure last-writer-wins), so `init "X"` followed by `update "Y"` leaves the
document at `"Y"`, and an `update` arriving before any `init` is applied the
same way to whatever the current state is. -/
theorem claim_C3_update_overwrites :
    ∀ (doc x y d0 : List Char),
      syncStep doc (SyncMsg.parsed "update".data y) = y ∧
      List.foldl syncStep d0
        [SyncMsg.parsed "init".data x, SyncMsg.parsed "update".data y] = y ∧
      List.foldl syncStep d0 [SyncMsg.parsed "update".data y] = y := by
  intro doc x y d0
  refine ⟨?_, ?_, ?_⟩ <;> simp [syncStep]

/-- C5: the document `"i think teh cat is nice."` under an `improve` request
on the simulation path produces a modification whose new content contains
(indeed, equals) `"I think the cat is nice."`. -/
theorem claim_C5_improve_scenario :
    ∀ rand : Nat,
      (simulateAIResponse "improve".data "i think teh cat is nice.".data rand).action =
        "modify".data ∧
      (simulateAIResponse "improve".data "i think teh cat is nice.".data rand).newContent =
        some "I think the cat is nice.".data ∧
      listContains
        ((simulateAIResponse "improve".data "i think teh cat is nice.".data rand).newContent.getD [])
        "I think the cat is nice.".data = true := by
  intro rand
  exact ⟨rfl, by rfl, by rfl⟩

/-- C7: provider detection scans the fixed priority list in order and returns
the first available provider; since `simulation` is unconditionally available
and terminates the list, the selection always exists, whatever the
credential configuration. -/
theorem claim_C7_provider_selection :
    ∀ keys : ProviderKeys,
      (providersList.find? (isProviderAvailable keys)).isSome = true ∧
      detectAvailableProvider keys ∈ providersList ∧
      isProviderAvailable keys (detectAvailableProvider keys) = true ∧
      ∃ i, i < providersList.length ∧
        providersList.getD i [] = detectAvailableProvider keys ∧
        ∀ j, j < i → isProviderAvailable keys (providersList.getD j []) = false := by
  intro keys
  rcases keys with ⟨o, c, h, g⟩
  cases o <;> cases c <;> cases h <;> cases g <;> decide

/-- C9: the edit result always echoes the selection verbatim in
`originalText` and the requested tag in `editType`, for every intent
(known or unknown). -/
theorem claim_C9_frame :
    ∀ (editType selectedText customPrompt : List Char),
      (getTextEdit editType selectedText customPrompt).originalText = selectedText ∧
      (getTextEdit editType selectedText customPrompt).editType = editType := by
  intro editType selectedText customPrompt
  exact ⟨rfl, rfl⟩

/-- C10: a summarize/summary chat request (with none of the higher-priority
trigger phrases present) on an empty-after-trim document resolves to a pure
chat turn: action `chat` and no `newContent`, so the document is untouched. -/
theorem claim_C10_empty_summary :
    ∀ (msg doc : List Char) (rand : Nat),
      (listContains (toLowerList msg) "summarize".data = true ∨
        listContains (toLowerList msg) "summary".data = true) →
      listContains (toLowerList msg) "fix grammar".data = false →
      listContains (toLowerList msg) "correct".data = false →
      listContains (toLowerList msg) "improve".data = false →
      (listContains (toLowerList msg) "add".data = false ∨
        (listContains (toLowerList msg) "content".data = false ∧
         listContains (toLowerList msg) "paragraph".data = false ∧
         listContains (toLowerList msg) "text".data = false)) →
      trimC doc = [] →
      (simulateAIResponse msg doc rand).action = "chat".data ∧
      (simulateAIResponse msg doc rand).newContent = none := by
  intro msg doc rand h1 h2 h3 h4 h5 h6
  unfold simulateAIResponse
  dsimp only
  rw [h2, h3, h4]
  have hadd : (listContains (toLowerList msg) "add".data &&
      (listContains (toLowerList msg) "content".data ||
        listContains (toLowerList msg) "paragraph".data ||
        listContains (toLowerList msg) "text".data)) = false := by
    rcases h5 with h5 | ⟨ha, hb, hc⟩
    · rw [h5]; rfl
    · rw [ha, hb, hc]; simp
  rw [hadd]
  have hsum : (listContains (toLowerList msg) "summarize".data ||
      listContains (toLowerList msg) "summary".data) = true := by
    rcases h1 with h1 | h1 <;> rw [h1] <;> simp
  rw [hsum]
  rw [h6]
  exact ⟨rfl, rfl⟩

/-- C10 witness: the message `"summary"` with a whitespace-only document. -/
theorem claim_C10_witness :
    (simulateAIResponse "summary".data " ".data 0).action = "chat".data ∧
    (simulateAIResponse "summary".data " ".data 0).newContent = none :=
  claim_C10_empty_summary "summary".data " ".data 0 (Or.inr (by decide)) (by decide)
    (by decide) (by decide) (Or.inl (by decide)) (by decide)

/-! ### Lemmas about sentence splitting, trimming and joining (for C2 and C8) -/

theorem jsFilterIdx_lt_eq_take (k : Nat) :
    ∀ (l : List (List Char)) (i : Nat),
      jsFilterIdx (fun j => decide (j < k)) i l = l.take (k - i) := by
  intro l
  induction l with
  | nil => intro i; simp [jsFilterIdx]
  | cons x xs ih =>
    intro i
    by_cases h : i < k
    · rw [jsFilterIdx, if_pos (by simpa using h), ih]
      have hs : k - i = (k - (i + 1)) + 1 := by omega
      rw [hs, List.take_succ_cons]
    · rw [jsFilterIdx, if_neg (by simpa using h), ih]
      have h1 : k - i = 0 := by omega
      have h2 : k - (i + 1) = 0 := by omega
      rw [h1, h2]
      simp

theorem splitRunGo_ne_nil (cls : Char → Bool) :
    ∀ (s : List Char) (b : Bool), splitRunGo cls b s ≠ [] := by
  intro s
  induction s with
  | nil => intro b; simp [splitRunGo]
  | cons c cs ih =>
    intro b
    rw [splitRunGo]
    by_cases hc : cls c = true
    · rw [if_pos hc]
      cases b
      · rw [if_neg (by decide : ¬(false = true))]
        simp
      · exact ih true
    · rw [if_neg hc]
      cases h : splitRunGo cls false cs <;> simp

theorem splitRunGo_mem_not_cls (cls : Char → Bool) :
    ∀ (s : List Char) (b : Bool) (seg : List Char),
      seg ∈ splitRunGo cls b s → ∀ c ∈ seg, cls c = false := by
  intro s
  induction s with
  | nil =>
    intro b seg hseg c hc
    simp [splitRunGo] at hseg
    subst hseg
    simp at hc
  | cons a cs ih =>
    intro b seg hseg c hc
    rw [splitRunGo] at hseg
    by_cases ha : cls a = true
    · rw [if_pos ha] at hseg
      cases b with
      | false =>
        rw [if_neg (by decide : ¬(false = true))] at hseg
        rcases List.mem_cons.mp hseg with h | h
        · subst h; simp at hc
        · exact ih true seg h c hc
      | true =>
        rw [if_pos (rfl : true = true)] at hseg
        exact ih true seg hseg c hc
    · rw [if_neg ha] at hseg
      cases hrec : splitRunGo cls false cs with
      | nil => exact absurd hrec (splitRunGo_ne_nil cls cs false)
      | cons h t =>
        rw [hrec] at hseg
        rcases List.mem_cons.mp hseg with hs | hs
        · subst hs
          rcases List.mem_cons.mp hc with hcc | hcc
          · subst hcc; simpa using ha
          · exact ih false h (by rw [hrec]; exact List.mem_cons_self h t) c hcc
        · exact ih false seg (by rw [hrec]; exact List.mem_cons_of_mem h hs) c hc

theorem splitRunGo_cons_not_cls (cls : Char → Bool) {c : Char} (hc : cls c = false)
    (b : Bool) (cs : List Char) :
    ∃ h t, splitRunGo cls false cs = h :: t ∧ splitRunGo cls b (c :: cs) = (c :: h) :: t := by
  cases hrec : splitRunGo cls false cs with
  | nil => exact absurd hrec (splitRunGo_ne_nil cls cs false)
  | cons h t =>
    refine ⟨h, t, rfl, ?_⟩
    rw [splitRunGo, if_neg (by simp [hc]), hrec]

theorem splitRunGo_noCls_append (cls : Char → Bool) {c : Char} (hc : cls c = true) :
    ∀ (x : List Char), (∀ a ∈ x, cls a = false) →
      ∀ r, splitRunGo cls false (x ++ c :: r) = x :: splitRunGo cls true r := by
  intro x
  induction x with
  | nil =>
    intro _ r
    rw [List.nil_append, splitRunGo, if_pos hc,
      if_neg (by decide : ¬(false = true))]
  | cons a x' ih =>
    intro hx r
    have ha : cls a = false := hx a (List.mem_cons_self a x')
    obtain ⟨h, t, hrec, hcons⟩ :=
      splitRunGo_cons_not_cls cls ha false (x' ++ c :: r)
    rw [List.cons_append, hcons]
    rw [ih (fun y hy => hx y (List.mem_cons_of_mem a hy)) r] at hrec
    injection hrec with h1 h2
    rw [h1, h2]

theorem jsSplitTerm_join :
    ∀ (l : List (List Char)) (x : List Char),
      (∀ a ∈ x, isTermCh a = false) →
      (∀ y ∈ l, ∀ a ∈ y, isTermCh a = false) →
      jsSplitTerm (joinSep ". ".data (x :: l) ++ ['.']) =
        x :: l.map (fun y => ' ' :: y) ++ [[]] := by
  intro l
  induction l with
  | nil =>
    intro x hx _
    show splitRunGo isTermCh false (x ++ '.' :: []) = _
    rw [splitRunGo_noCls_append isTermCh (by decide) x hx []]
    rfl
  | cons y l' ih =>
    intro x hx hl
    have hjoin : joinSep ". ".data (x :: y :: l') ++ ['.'] =
        x ++ '.' :: (' ' :: (joinSep ". ".data (y :: l') ++ ['.'])) := by
      show (x ++ ". ".data ++ joinSep ". ".data (y :: l')) ++ ['.'] = _
      simp
    rw [hjoin]
    show splitRunGo isTermCh false _ = _
    rw [splitRunGo_noCls_append isTermCh (by decide) x hx]
    obtain ⟨h, t, hrec, hcons⟩ :=
      splitRunGo_cons_not_cls isTermCh (c := ' ') (by decide) true
        (joinSep ". ".data (y :: l') ++ ['.'])
    rw [hcons]
    have hih := ih y (hl y (List.mem_cons_self y l'))
      (fun z hz => hl z (List.mem_cons_of_mem y hz))
    rw [show jsSplitTerm (joinSep ". ".data (y :: l') ++ ['.']) =
        splitRunGo isTermCh false (joinSep ". ".data (y :: l') ++ ['.']) from rfl] at hih
    rw [hih] at hrec
    injection hrec with h1 h2
    subst h1
    subst h2
    simp

theorem trimC_eq_rdrop (s : List Char) :
    trimC s = List.rdropWhile isWs (s.dropWhile isWs) := rfl

theorem dropWhile_head_false {p : Char → Bool} :
    ∀ {l : List Char} {a : Char} {rest : List Char},
      List.dropWhile p l = a :: rest → p a = false := by
  intro l
  induction l with
  | nil => intro a rest h; simp at h
  | cons c cs ih =>
    intro a rest h
    rw [List.dropWhile_cons] at h
    by_cases hc : p c = true
    · rw [if_pos hc] at h
      exact ih h
    · rw [if_neg hc] at h
      injection h with h1 _
      subst h1
      simpa using hc

theorem dropWhile_rdropWhile_dropWhile (s : List Char) :
    List.dropWhile isWs (List.rdropWhile isWs (List.dropWhile isWs s)) =
      List.rdropWhile isWs (List.dropWhile isWs s) := by
  cases hr : List.rdropWhile isWs (List.dropWhile isWs s) with
  | nil => simp
  | cons a rest =>
    have hpre := List.rdropWhile_prefix isWs (List.dropWhile isWs s)
    rw [hr] at hpre
    obtain ⟨tl, htl⟩ := hpre
    have hu : List.dropWhile isWs s = a :: (rest ++ tl) := by
      rw [← htl]; simp
    have hhead : isWs a = false := dropWhile_head_false hu
    rw [List.dropWhile_cons, hhead]
    simp

theorem trimC_idem (s : List Char) : trimC (trimC s) = trimC s := by
  rw [trimC_eq_rdrop, trimC_eq_rdrop s, dropWhile_rdropWhile_dropWhile,
    List.rdropWhile_idempotent]

theorem trimC_cons_ws {c : Char} (hc : isWs c = true) (s : List Char) :
    trimC (c :: s) = trimC s := by
  rw [trimC_eq_rdrop, trimC_eq_rdrop, List.dropWhile_cons_of_pos hc]

theorem mem_of_mem_trimC {a : Char} {s : List Char} (h : a ∈ trimC s) : a ∈ s := by
  rw [trimC_eq_rdrop] at h
  have h1 : a ∈ List.dropWhile isWs s :=
    ((List.rdropWhile_prefix isWs (List.dropWhile isWs s)).sublist).mem h
  exact ((List.dropWhile_suffix isWs).sublist).mem h1

theorem sentencesOf_mem_facts {t s : List Char} (h : s ∈ sentencesOf t) :
    (∀ a ∈ s, isTermCh a = false) ∧ trimC s ≠ [] := by
  unfold sentencesOf at h
  obtain ⟨hmem, hp⟩ := List.mem_filter.mp h
  refine ⟨fun a ha => splitRunGo_mem_not_cls isTermCh t false s hmem a ha, ?_⟩
  simpa [List.isEmpty_iff] using hp

theorem sentencesOf_joined (x : List Char) (l : List (List Char))
    (hx1 : ∀ a ∈ x, isTermCh a = false) (hx2 : trimC x ≠ [])
    (hl : ∀ y ∈ l, (∀ a ∈ y, isTermCh a = false) ∧ trimC y ≠ []) :
    sentencesOf (joinSep ". ".data (x :: l) ++ ['.']) =
      x :: l.map (fun y => ' ' :: y) := by
  unfold sentencesOf
  rw [jsSplitTerm_join l x hx1 (fun y hy => (hl y hy).1)]
  rw [show x :: l.map (fun y => ' ' :: y) ++ [[]] =
      x :: (l.map (fun y => ' ' :: y) ++ [([] : List Char)]) from rfl]
  rw [List.filter_cons_of_pos (by simpa [List.isEmpty_iff] using hx2)]
  rw [List.filter_append]
  rw [List.filter_eq_self.mpr ?keep]
  case keep =>
    intro z hz
    obtain ⟨y, hy, rfl⟩ := List.mem_map.mp hz
    have : trimC (' ' :: y) = trimC y := trimC_cons_ws (by decide) y
    simpa [List.isEmpty_iff, this] using (hl y hy).2
  simp [show trimC ([] : List Char) = [] from rfl]

/-- C2: `shortenText` leaves a zero- or one-sentence input unchanged; on
`N > 1` sentences it returns the first `ceil(0.7 N)` of them, trimmed,
rejoined with `'. '` and a trailing `'.'`, and the returned text indeed
consists of exactly `ceil(0.7 N)` sentences. -/
theorem claim_C2_shorten :
    ∀ t : List Char,
      ((sentencesOf t).length ≤ 1 → shortenText t = t) ∧
      (2 ≤ (sentencesOf t).length →
        shortenText t =
          joinSep ". ".data
            (((sentencesOf t).map trimC).take (ceil70 (sentencesOf t).length)) ++ ['.'] ∧
        (sentencesOf (shortenText t)).length = ceil70 (sentencesOf t).length) := by
  intro t
  constructor
  · intro h
    unfold shortenText
    dsimp only
    rw [if_pos h]
  · intro h
    have hne : ¬((sentencesOf t).length ≤ 1) := by omega
    have heq : shortenText t =
        joinSep ". ".data
          (((sentencesOf t).map trimC).take (ceil70 (sentencesOf t).length)) ++ ['.'] := by
      unfold shortenText
      dsimp only
      rw [if_neg hne, jsFilterIdx_lt_eq_take, Nat.sub_zero]
    refine ⟨heq, ?_⟩
    have hk1 : 1 ≤ ceil70 (sentencesOf t).length := by
      rw [ceil70, Nat.le_div_iff_mul_le (by norm_num)]
      omega
    have hkN : ceil70 (sentencesOf t).length ≤ (sentencesOf t).length := by
      have := (Nat.div_lt_iff_lt_mul (x := 7 * (sentencesOf t).length + 9)
        (y := (sentencesOf t).length + 1) (by norm_num : (0:Nat) < 10)).mpr (by omega)
      rw [ceil70]
      omega
    have hlen : (((sentencesOf t).map trimC).take (ceil70 (sentencesOf t).length)).length =
        ceil70 (sentencesOf t).length := by
      rw [List.length_take, List.length_map]
      omega
    cases hL : ((sentencesOf t).map trimC).take (ceil70 (sentencesOf t).length) with
    | nil =>
      rw [hL] at hlen
      simp at hlen
      omega
    | cons x l =>
      have hfact : ∀ y ∈ x :: l, (∀ a ∈ y, isTermCh a = false) ∧ trimC y ≠ [] := by
        intro y hy
        have hy2 : y ∈ (sentencesOf t).map trimC := by
          have hy1 : y ∈ List.take (ceil70 (sentencesOf t).length)
              ((sentencesOf t).map trimC) := by
            rw [hL]; exact hy
          exact List.mem_of_mem_take hy1
        obtain ⟨s, hs, rfl⟩ := List.mem_map.mp hy2
        have h1 := sentencesOf_mem_facts hs
        refine ⟨fun a ha => h1.1 a (mem_of_mem_trimC ha), ?_⟩
        rw [trimC_idem]
        exact h1.2
      rw [heq, hL]
      rw [sentencesOf_joined x l (hfact x (List.mem_cons_self x l)).1
        (hfact x (List.mem_cons_self x l)).2
        (fun y hy => hfact y (List.mem_cons_of_mem x hy))]
      have hxl : (x :: l).length = ceil70 (sentencesOf t).length := by
        rw [hL] at hlen
        exact hlen
      simpa using hxl

/-- C2 witness: the spec's four-sentence meeting example shortens to exactly
three sentences. -/
theorem claim_C2_shorten_witness :
    (sentencesOf "The meeting went well. We discussed the budget. Everyone agreed to the plan. Next steps were assigned.".data).length = 4 ∧
    (sentencesOf (shortenText "The meeting went well. We discussed the budget. Everyone agreed to the plan. Next steps were assigned.".data)).length = 3 := by
  refine ⟨by decide, ?_⟩
  have h := (claim_C2_shorten "The meeting went well. We discussed the budget. Everyone agreed to the plan. Next steps were assigned.".data).2 (by decide)
  rw [h.2]
  decide

theorem foldl_tableRow_append :
    ∀ (l : List (Nat × List Char)) (init : List Char),
      l.foldl (fun table p => table ++ tableRow p.1 p.2) init =
        init ++ (l.map (fun p => tableRow p.1 p.2)).flatten := by
  intro l
  induction l with
  | nil => intro init; simp
  | cons p l ih =>
    intro init
    rw [List.foldl_cons, ih]
    simp

/-- C8: `convertToTable` returns inputs with fewer than two sentences
unchanged; with `N ≥ 2` sentences it returns the two header rows followed by
exactly `N` data rows, where the `i`-th data row (0-based `i`) carries the
1-indexed number `i + 1` and the trimmed `i`-th sentence. -/
theorem claim_C8_table :
    ∀ t : List Char,
      ((sentencesOf t).length < 2 → convertToTable t = t) ∧
      (2 ≤ (sentencesOf t).length →
        convertToTable t =
          "| Item | Description |\n|------|-------------|\n".data ++
            ((sentencesOf t).enum.map (fun p => tableRow p.1 p.2)).flatten ∧
        ((sentencesOf t).enum.map (fun p => tableRow p.1 p.2)).length =
          (sentencesOf t).length ∧
        (∀ i, i < (sentencesOf t).length →
          ((sentencesOf t).enum.map (fun p => tableRow p.1 p.2)).getD i [] =
            "| ".data ++ (Nat.repr (i + 1)).data ++ " | ".data ++
              trimC ((sentencesOf t).getD i []) ++ " |\n".data)) := by
  intro t
  constructor
  · intro h
    unfold convertToTable
    dsimp only
    rw [if_pos h]
  · intro h
    have hne : ¬((sentencesOf t).length < 2) := by omega
    refine ⟨?_, ?_, ?_⟩
    · unfold convertToTable
      dsimp only
      rw [if_neg hne, foldl_tableRow_append]
      rfl
    · simp
    · intro i hi
      have hlen : i < ((sentencesOf t).enum.map (fun p => tableRow p.1 p.2)).length := by
        simpa using hi
      rw [List.getD_eq_getElem _ _ hlen, List.getElem_map,
        List.getElem_enum, List.getD_eq_getElem _ _ hi]
      rfl

/-- C8 witness: a concrete two-sentence selection produces the header plus two
numbered rows. -/
theorem claim_C8_table_witness :
    (sentencesOf "One here. Two there!".data).length = 2 ∧
    convertToTable "One here. Two there!".data =
      "| Item | Description |\n|------|-------------|\n| 1 | One here |\n| 2 | Two there |\n".data := by
  refine ⟨by decide, ?_⟩
  have h := ((claim_C8_table "One here. Two there!".data).2 (by decide)).1
  rw [h]
  decide

/-- C6 counterexample: with intent `custom` and an empty instruction the
service does not return the selection unchanged — `"stuff"` comes back as
`improveWriting "stuff" = "material"`. -/
theorem claim_C6_counterexample :
    ¬((getTextEdit "custom".data "stuff".data []).editedText = "stuff".data) := by
  decide

/-- C6 (amended): with intent `custom`, the App layer performs no service
call at all (no work, no error), whatever the instruction; a direct
`getTextEdit` call with an empty/undefined instruction still resolves without
error, but its `editedText` is `improveWriting` of the selection (the default
branch of `customEdit`), not necessarily the unchanged input. -/
theorem claim_C6_amended :
    ∀ selectedText : List Char,
      handleEditWithAICallsService "custom".data = false ∧
      (getTextEdit "custom".data selectedText []).editedText =
        improveWriting selectedText ∧
      (getTextEdit "custom".data selectedText []).originalText = selectedText := by
  intro selectedText
  exact ⟨rfl, rfl, rfl⟩

/-! ### Metatheory of the `\b`-anchored replacement scanner (for C4)

The idempotence of `makeFormal`/`makeCasual` reduces to: after one pass, no
occurrence of any of the nine patterns remains, because no replacement text
can recreate one — neither inside itself nor overlapping the untouched
characters around it.  The overlap analysis is captured by the decidable
predicate `safeCross` below, checked by `decide` for the concrete tables. -/

theorem natWord_true_iff (n : Nat) :
    natWord n = true ↔
      ((97 ≤ n ∧ n ≤ 122) ∨ (65 ≤ n ∧ n ≤ 90) ∨ (48 ≤ n ∧ n ≤ 57) ∨ n = 95) := by
  simp only [natWord, Bool.or_eq_true, Bool.and_eq_true, decide_eq_true_eq, beq_iff_eq]
  tauto

theorem lowNat_word {m n : Nat} (h : lowNat m = lowNat n) : natWord m = natWord n := by
  unfold lowNat at h
  split_ifs at h with h1 h2 h2
  · have hmn : m = n := by omega
    subst hmn; rfl
  · have hm : natWord m = true := (natWord_true_iff m).mpr (by omega)
    have hn : natWord n = true := (natWord_true_iff n).mpr (by omega)
    rw [hm, hn]
  · have hm : natWord m = true := (natWord_true_iff m).mpr (by omega)
    have hn : natWord n = true := (natWord_true_iff n).mpr (by omega)
    rw [hm, hn]
  · subst h; rfl

/-- Case-insensitive equality preserves word-ness (ASCII folding maps letters
to letters and fixes everything else). -/
theorem chEq_word {ci : Bool} {a b : Char} (h : chEq ci a b = true) :
    wordChar a = wordChar b := by
  unfold chEq at h
  cases ci with
  | false =>
    have : a = b := by simpa using h
    subst this; rfl
  | true =>
    have : lowNat a.toNat = lowNat b.toNat := by simpa using h
    exact lowNat_word this

theorem ciLeads_length {ci : Bool} : ∀ {p s : List Char},
    ciLeads ci p s = true → p.length ≤ s.length := by
  intro p
  induction p with
  | nil => intro s _; simp
  | cons a ps ih =>
    intro s h
    cases s with
    | nil => simp [ciLeads] at h
    | cons c cs =>
      rw [ciLeads, Bool.and_eq_true] at h
      have := ih h.2
      simp only [List.length_cons]
      omega

theorem ciLeads_getD {ci : Bool} : ∀ {p s : List Char},
    ciLeads ci p s = true → ∀ i, i < p.length →
      chEq ci (p.getD i ' ') (s.getD i ' ') = true := by
  intro p
  induction p with
  | nil => intro s _ i hi; simp at hi
  | cons a ps ih =>
    intro s h i hi
    cases s with
    | nil => simp [ciLeads] at h
    | cons c cs =>
      rw [ciLeads, Bool.and_eq_true] at h
      cases i with
      | zero => simpa using h.1
      | succ j =>
        have := ih h.2 j (by simpa using hi)
        simpa using this

theorem ciLeads_take_eq {ci : Bool} : ∀ (p : List Char) {s1 s2 : List Char},
    s1.take p.length = s2.take p.length → ciLeads ci p s1 = ciLeads ci p s2 := by
  intro p
  induction p with
  | nil => intro s1 s2 _; rfl
  | cons a ps ih =>
    intro s1 s2 h
    cases s1 with
    | nil =>
      cases s2 with
      | nil => rfl
      | cons c2 cs2 => simp at h
    | cons c1 cs1 =>
      cases s2 with
      | nil => simp at h
      | cons c2 cs2 =>
        simp only [List.length_cons, List.take_succ_cons, List.cons.injEq] at h
        rw [ciLeads, ciLeads, h.1, ih h.2]

theorem matchesAt_congr_prev {ci wb : Bool} {pat : List Char} {u v : Option Char}
    {s : List Char} (h : wordOpt u = wordOpt v) :
    matchesAt ci wb pat u s = matchesAt ci wb pat v s := by
  unfold matchesAt bdry
  rw [h]

theorem matchesAt_parts {ci : Bool} {pat : List Char} {prev : Option Char}
    {s : List Char} (h : matchesAt ci true pat prev s = true) :
    pat ≠ [] ∧ ciLeads ci pat s = true ∧ bdry prev s.head? = true ∧
      bdry ((s.take pat.length).getLast?) ((s.drop pat.length).head?) = true := by
  unfold matchesAt at h
  simp only [Bool.and_eq_true, Bool.not_eq_true', Bool.or_eq_true] at h
  obtain ⟨⟨h1, h2⟩, h3⟩ := h
  rcases h3 with h3 | h3
  · simp at h3
  · exact ⟨by simpa [List.isEmpty_iff] using h1, h2, h3.1, h3.2⟩

theorem matchesAt_take_eq {ci wb : Bool} {pat : List Char} {prev : Option Char}
    {s1 s2 : List Char} (h : s1.take (pat.length + 1) = s2.take (pat.length + 1)) :
    matchesAt ci wb pat prev s1 = matchesAt ci wb pat prev s2 := by
  have htakeL : s1.take pat.length = s2.take pat.length := by
    have e1 : s1.take pat.length = (s1.take (pat.length + 1)).take pat.length := by
      rw [List.take_take]
      congr 1
      omega
    have e2 : s2.take pat.length = (s2.take (pat.length + 1)).take pat.length := by
      rw [List.take_take]
      congr 1
      omega
    rw [e1, e2, h]
  have hhead : s1.head? = s2.head? := by
    rw [List.head?_eq_getElem?, List.head?_eq_getElem?]
    have e1 : s1[0]? = (s1.take (pat.length + 1))[0]? := by
      rw [List.getElem?_take]
      simp
    have e2 : s2[0]? = (s2.take (pat.length + 1))[0]? := by
      rw [List.getElem?_take]
      simp
    rw [e1, e2, h]
  have hafter : (s1.drop pat.length).head? = (s2.drop pat.length).head? := by
    rw [List.head?_eq_getElem?, List.head?_eq_getElem?, List.getElem?_drop,
      List.getElem?_drop]
    have e1 : s1[pat.length + 0]? = (s1.take (pat.length + 1))[pat.length]? := by
      rw [List.getElem?_take]
      simp
    have e2 : s2[pat.length + 0]? = (s2.take (pat.length + 1))[pat.length]? := by
      rw [List.getElem?_take]
      simp
    rw [e1, e2, h]
  unfold matchesAt
  rw [ciLeads_take_eq pat htakeL, hhead, hafter, htakeL]

theorem lastOpt_nil (v : Option Char) : lastOpt [] v = v := rfl

theorem lastOpt_cons (c : Char) (w : List Char) (v : Option Char) :
    lastOpt (c :: w) v = lastOpt w (some c) := by
  cases w with
  | nil => rfl
  | cons d w' =>
    unfold lastOpt
    rw [List.getLast?_cons_cons]
    cases hgl : (d :: w').getLast? with
    | none => simp at hgl
    | some a => rfl

theorem lastOpt_append (w m : List Char) (v : Option Char) (hm : m ≠ []) :
    lastOpt (w ++ m) v = m.getLast? := by
  unfold lastOpt
  rw [List.getLast?_append]
  cases hm' : m.getLast? with
  | none =>
    cases m with
    | nil => exact absurd rfl hm
    | cons x m' => simp at hm'
  | some a => rfl

theorem cleanFrom_congr_prev {ci wb : Bool} {q : List Char} {u v : Option Char}
    (h : wordOpt u = wordOpt v) (s : List Char) :
    cleanFrom ci wb q u s = cleanFrom ci wb q v s := by
  cases s with
  | nil => rfl
  | cons c cs =>
    rw [cleanFrom, cleanFrom, matchesAt_congr_prev h]

theorem cleanFrom_append_right {ci : Bool} {q : List Char} :
    ∀ (a : List Char) {v : Option Char} (b : List Char),
      cleanFrom ci true q v (a ++ b) = true → cleanFrom ci true q (lastOpt a v) b = true := by
  intro a
  induction a with
  | nil => intro v b h; simpa [lastOpt] using h
  | cons c a' ih =>
    intro v b h
    rw [List.cons_append, cleanFrom, Bool.and_eq_true] at h
    rw [lastOpt_cons]
    exact ih b h.2

theorem cleanFrom_position {ci : Bool} {q : List Char} {v : Option Char}
    {s : List Char} (h : cleanFrom ci true q v s = true) :
    ∀ a c b, s = a ++ c :: b → matchesAt ci true q (lastOpt a v) (c :: b) = false := by
  intro a c b hs
  subst hs
  have h2 := cleanFrom_append_right a (c :: b) h
  rw [cleanFrom, Bool.and_eq_true] at h2
  simpa using h2.1

theorem cleanFrom_build {ci : Bool} {q : List Char} :
    ∀ (s : List Char) {v : Option Char},
      (∀ a c b, s = a ++ c :: b → matchesAt ci true q (lastOpt a v) (c :: b) = false) →
      cleanFrom ci true q v s = true := by
  intro s
  induction s with
  | nil => intro v _; rfl
  | cons c cs ih =>
    intro v h
    rw [cleanFrom, Bool.and_eq_true]
    constructor
    · have := h [] c cs rfl
      rw [lastOpt_nil] at this
      simpa using this
    · apply ih
      intro a c' b hab
      have := h (c :: a) c' b (by rw [hab]; rfl)
      rw [lastOpt_cons] at this
      exact this

theorem go_zero_cons (ci wb : Bool) (pat repl : List Char) (prev : Option Char)
    (c : Char) (cs : List Char) :
    replaceAllGo ci wb pat repl 0 prev (c :: cs) =
      if matchesAt ci wb pat prev (c :: cs) then
        repl ++ replaceAllGo ci wb pat repl (pat.length - 1) (some c) cs
      else c :: replaceAllGo ci wb pat repl 0 (some c) cs := rfl

theorem replaceAllGo_skip {ci wb : Bool} {pat repl : List Char} :
    ∀ (k : Nat) (s : List Char) (prev : Option Char), k + 1 ≤ s.length →
      replaceAllGo ci wb pat repl (k + 1) prev s =
        replaceAllGo ci wb pat repl 0 (some (s.getD k ' ')) (s.drop (k + 1)) := by
  intro k
  induction k with
  | zero =>
    intro s prev h
    cases s with
    | nil => simp at h
    | cons c cs => rfl
  | succ k ih =>
    intro s prev h
    cases s with
    | nil => simp at h
    | cons c cs =>
      show replaceAllGo ci wb pat repl (k + 1) (some c) cs = _
      rw [ih cs (some c) (by simpa using h)]
      rfl

theorem take_getLast? (l : List Char) (n : Nat) (h : n + 1 ≤ l.length) :
    (l.take (n + 1)).getLast? = some (l.getD n ' ') := by
  rw [List.getLast?_eq_getElem?, List.length_take]
  have hmin : min (n + 1) l.length = n + 1 := by omega
  rw [hmin]
  simp only [Nat.add_sub_cancel]
  rw [List.getElem?_take, if_pos (by omega), List.getD_eq_getElem?_getD,
    List.getElem?_eq_getElem (by omega)]
  rfl

theorem go_match_step {ci : Bool} {pat repl : List Char} {prev : Option Char}
    {c : Char} {cs : List Char} (h : matchesAt ci true pat prev (c :: cs) = true) :
    replaceAllGo ci true pat repl 0 prev (c :: cs) =
      repl ++ replaceAllGo ci true pat repl 0 (((c :: cs).take pat.length).getLast?)
        ((c :: cs).drop pat.length) := by
  obtain ⟨hp, hl, _, _⟩ := matchesAt_parts h
  have hlen := ciLeads_length hl
  rw [go_zero_cons, if_pos h]
  cases hpl : pat.length with
  | zero => exact absurd (List.length_eq_zero.mp hpl) hp
  | succ n =>
    cases n with
    | zero => rfl
    | succ m =>
      have hcs : m + 1 ≤ cs.length := by
        rw [hpl] at hlen
        simp only [List.length_cons] at hlen
        omega
      rw [show m + 1 + 1 - 1 = m + 1 from rfl]
      rw [replaceAllGo_skip m cs (some c) hcs]
      rw [take_getLast? (c :: cs) (m + 1) (by simp only [List.length_cons]; omega)]
      rfl

/-- First-hit decomposition of one replacement pass: either the scan never
fires (and the string is in fact clean for the pattern), or the string splits
as `w ++ m ++ rest` with `m` the leftmost match, every position inside `w`
match-free, and the output equal to `w ++ repl ++ (pass over rest)`. -/
theorem go_decomp (ci : Bool) (pat repl : List Char) :
    ∀ (s : List Char) (prev : Option Char),
      (replaceAllGo ci true pat repl 0 prev s = s ∧ cleanFrom ci true pat prev s = true) ∨
      (∃ w m rest, s = w ++ m ++ rest ∧ m ≠ [] ∧ m.length = pat.length ∧
        matchesAt ci true pat (lastOpt w prev) (m ++ rest) = true ∧
        (∀ a c b, w = a ++ c :: b →
          matchesAt ci true pat (lastOpt a prev) (c :: (b ++ m ++ rest)) = false) ∧
        replaceAllGo ci true pat repl 0 prev s =
          w ++ repl ++ replaceAllGo ci true pat repl 0 m.getLast? rest) := by
  intro s
  induction s with
  | nil => intro prev; left; exact ⟨rfl, rfl⟩
  | cons c cs ih =>
    intro prev
    by_cases hm : matchesAt ci true pat prev (c :: cs) = true
    · right
      obtain ⟨hp, hl, _, _⟩ := matchesAt_parts hm
      have hlen := ciLeads_length hl
      have hplpos : 1 ≤ pat.length := by
        cases hpl : pat.length with
        | zero => exact absurd (List.length_eq_zero.mp hpl) hp
        | succ n => omega
      refine ⟨[], (c :: cs).take pat.length, (c :: cs).drop pat.length,
        by rw [List.nil_append, List.take_append_drop], ?_, ?_, ?_, ?_, ?_⟩
      · cases hpl : pat.length with
        | zero => omega
        | succ n => simp [List.take_succ_cons]
      · rw [List.length_take]
        simp only [List.length_cons] at hlen ⊢
        omega
      · rw [List.take_append_drop, lastOpt_nil]
        exact hm
      · intro a c' b hab
        exact absurd hab (by simp)
      · rw [go_match_step hm, List.nil_append]
    · rcases ih (some c) with ⟨h1, h2⟩ | ⟨w, m, rest, hs, hm0, hml, hmm, hwpos, hout⟩
      · left
        constructor
        · rw [go_zero_cons, if_neg (by simpa using hm), h1]
        · rw [cleanFrom, Bool.and_eq_true]
          exact ⟨by simpa using hm, h2⟩
      · right
        refine ⟨c :: w, m, rest, by rw [hs]; simp [List.append_assoc], hm0, hml, ?_, ?_, ?_⟩
        · rw [lastOpt_cons]
          exact hmm
        · intro a c' b hab
          cases a with
          | nil =>
            rw [List.nil_append] at hab
            injection hab with hc1 hc2
            subst hc1
            subst hc2
            rw [lastOpt_nil, ← hs]
            simpa using hm
          | cons a0 a' =>
            rw [List.cons_append] at hab
            injection hab with hc1 hc2
            subst hc1
            rw [lastOpt_cons]
            exact hwpos a' c' b hc2
        · rw [go_zero_cons, if_neg (by simpa using hm), hout, List.cons_append,
            List.cons_append]

theorem getD_drop (l : List Char) (k i : Nat) :
    (l.drop k).getD i ' ' = l.getD (k + i) ' ' := by
  rw [List.getD_eq_getElem?_getD, List.getD_eq_getElem?_getD, List.getElem?_drop]

theorem head?_getD (l : List Char) (h : l ≠ []) : l.head? = some (l.getD 0 ' ') := by
  cases l with
  | nil => exact absurd rfl h
  | cons c cs => rfl

theorem drop_head? (s : List Char) (n : Nat) (h : n < s.length) :
    (s.drop n).head? = some (s.getD n ' ') := by
  rw [List.head?_eq_getElem?, List.getElem?_drop, Nat.add_zero,
    List.getD_eq_getElem?_getD, List.getElem?_eq_getElem h]
  rfl

theorem bdry_true_iff (u v : Option Char) : bdry u v = true ↔ wordOpt u ≠ wordOpt v := by
  simp [bdry, bne_iff_ne]

theorem getLast?_getD (l : List Char) (h : l ≠ []) :
    l.getLast? = some (l.getD (l.length - 1) ' ') := by
  rw [List.getLast?_eq_getElem?, List.getD_eq_getElem?_getD,
    List.getElem?_eq_getElem (by cases l with
      | nil => exact absurd rfl h
      | cons c cs => simp only [List.length_cons]; omega)]
  rfl

/-- Inside an inserted replacement block `r`, no match of `\bq\b` can start:
any such match would realize an alignment forbidden by `safeCross`.  `tail`
is whatever the scan emits after the block; its first character is non-word,
and it is itself clean for `q`. -/
theorem cleanOnRepl {ci : Bool} {q r : List Char}
    (hq : wordEnds q) (hr : wordEnds r) (hsafe : safeCross ci r q)
    {tail : List Char} (htail : headNonWord tail)
    (hctail : cleanFrom ci true q r.getLast? tail = true) :
    ∀ (rs : List Char) (k : Nat), rs = r.drop k → k ≤ r.length →
      ∀ (prevk : Option Char),
        wordOpt prevk = (if k = 0 then false else wordChar (r.getD (k - 1) ' ')) →
        cleanFrom ci true q prevk (rs ++ tail) = true := by
  intro rs
  induction rs with
  | nil =>
    intro k hk hkle prevk hprev
    have hkeq : k = r.length := by
      have hlen := congrArg List.length hk
      simp only [List.length_nil, List.length_drop] at hlen
      omega
    rw [List.nil_append]
    have hrne : r ≠ [] := hr.1
    have hk0 : k ≠ 0 := by
      intro h0
      rw [h0] at hkeq
      exact hrne (List.length_eq_zero.mp hkeq.symm)
    rw [if_neg hk0, hkeq] at hprev
    have hw : wordOpt prevk = wordOpt r.getLast? := by
      rw [getLast?_getD r hrne]
      exact hprev
    rw [cleanFrom_congr_prev hw]
    exact hctail
  | cons c rs' ih =>
    intro k hk hkle prevk hprev
    have hklt : k < r.length := by
      by_contra hge
      have hnil : r.drop k = [] := List.drop_eq_nil_of_le (by omega)
      rw [hnil] at hk
      simp at hk
    have hc : c = r.getD k ' ' := by
      have h1 : (r.drop k).head? = some c := by rw [← hk]; rfl
      rw [drop_head? r k hklt] at h1
      injection h1 with h1
      exact h1.symm
    have hrs' : rs' = r.drop (k + 1) := by
      have h1 : List.drop 1 (r.drop k) = List.drop 1 (c :: rs') := by rw [← hk]
      simpa [List.drop_drop, Nat.add_comm] using h1.symm
    rw [List.cons_append, cleanFrom, Bool.and_eq_true]
    have hqlen : 1 ≤ q.length := by
      cases hql : q.length with
      | zero => exact absurd (List.length_eq_zero.mp hql) hq.1
      | succ n => omega
    constructor
    · have hnomatch : matchesAt ci true q prevk (c :: (rs' ++ tail)) = false := by
        cases hmt : matchesAt ci true q prevk (c :: (rs' ++ tail)) with
        | false => rfl
        | true =>
          exfalso
          obtain ⟨hqne, hlead, hbb, hba⟩ := matchesAt_parts hmt
          have hs0 : c :: (rs' ++ tail) = r.drop k ++ tail := by
            rw [← hk]
            rfl
          have hs0len : (c :: (rs' ++ tail)).length = (r.length - k) + tail.length := by
            rw [hs0, List.length_append, List.length_drop]
          have hlen0 : q.length ≤ (c :: (rs' ++ tail)).length := ciLeads_length hlead
          have hchars : ∀ i, i < q.length →
              chEq ci (q.getD i ' ') ((c :: (rs' ++ tail)).getD i ' ') = true :=
            fun i hi => ciLeads_getD hlead i hi
          have hgetD : ∀ i, i < r.length - k →
              (c :: (rs' ++ tail)).getD i ' ' = r.getD (k + i) ' ' := by
            intro i hi
            rw [hs0, List.getD_append _ _ _ _ (by rw [List.length_drop]; omega),
              getD_drop]
          have hword_c : wordChar c = true := by
            have h0 := hchars 0 (by omega)
            have hc0 : (c :: (rs' ++ tail)).getD 0 ' ' = c := rfl
            rw [hc0] at h0
            rw [← chEq_word h0]
            exact hq.2.1
          apply hsafe.2 k hklt
          refine ⟨?_, ?_, ?_, ?_⟩
          · intro hk1
            rw [bdry_true_iff] at hbb
            have hvc : wordOpt (some c) = true := hword_c
            rw [List.head?_cons] at hbb
            have hpw : wordOpt prevk = false := by
              cases hpv : wordOpt prevk with
              | false => rfl
              | true => rw [hpv, hvc] at hbb; exact absurd rfl hbb
            rw [if_neg (by omega : ¬k = 0)] at hprev
            rw [hprev] at hpw
            exact hpw
          · intro i hi hklti
            have := hchars i hi
            rw [hgetD i (by omega)] at this
            exact this
          · intro hlt
            rw [bdry_true_iff] at hba
            have htake : ((c :: (rs' ++ tail)).take q.length).getLast? =
                some ((c :: (rs' ++ tail)).getD (q.length - 1) ' ') := by
              have := take_getLast? (c :: (rs' ++ tail)) (q.length - 1)
                (by omega)
              rw [show q.length - 1 + 1 = q.length from by omega] at this
              exact this
            have hlastw : wordChar ((c :: (rs' ++ tail)).getD (q.length - 1) ' ') = true := by
              have := hchars (q.length - 1) (by omega)
              rw [← chEq_word this]
              exact hq.2.2
            have hdrop : ((c :: (rs' ++ tail)).drop q.length).head? =
                some ((c :: (rs' ++ tail)).getD q.length ' ') := by
              apply drop_head?
              omega
            rw [htake, hdrop] at hba
            have hafter : (c :: (rs' ++ tail)).getD q.length ' ' =
                r.getD (k + q.length) ' ' := hgetD q.length (by omega)
            rw [hafter] at hba
            cases hx : wordChar (r.getD (k + q.length) ' ') with
            | false => rfl
            | true =>
              exfalso
              apply hba
              show wordChar _ = wordChar _
              rw [hlastw, hx]
          · intro hgt
            have hi0 : r.length - k < q.length := by omega
            have htne : tail ≠ [] := by
              intro ht
              subst ht
              simp at hs0len hlen0
              omega
            have hce := hchars (r.length - k) hi0
            have hright : (c :: (rs' ++ tail)).getD (r.length - k) ' ' =
                tail.getD 0 ' ' := by
              rw [hs0, List.getD_append_right _ _ _ _ (by rw [List.length_drop])]
              congr 1
              rw [List.length_drop]
              omega
            rw [hright] at hce
            have hw0 : wordChar (tail.getD 0 ' ') = false :=
              htail _ (head?_getD tail htne)
            rw [← chEq_word hce] at hw0
            exact hw0
      rw [hnomatch]
      rfl
    · apply ih (k + 1) hrs' (by omega) (some c)
      rw [if_neg (by omega : ¬k + 1 = 0)]
      show wordChar c = _
      rw [hc]
      congr 1

theorem lastOpt_chain : ∀ (x y : List Char) (v : Option Char),
    lastOpt (x ++ y) v = lastOpt y (lastOpt x v) := by
  intro x
  induction x with
  | nil =>
    intro y v
    rw [List.nil_append, lastOpt_nil]
  | cons c x' ih =>
    intro y v
    rw [List.cons_append, lastOpt_cons, lastOpt_cons, ih]

theorem lastOpt_of_ne {m : List Char} (hm : m ≠ []) (v : Option Char) :
    lastOpt m v = some (m.getD (m.length - 1) ' ') := by
  unfold lastOpt
  rw [getLast?_getD m hm]

theorem append_split_lt : ∀ (a w t d : List Char) (c : Char),
    w ++ t = a ++ c :: d → a.length < w.length →
    ∃ b, w = a ++ c :: b ∧ d = b ++ t := by
  intro a
  induction a with
  | nil =>
    intro w t d c h hlt
    cases w with
    | nil => simp at hlt
    | cons w0 w' =>
      rw [List.cons_append, List.nil_append] at h
      injection h with h1 h2
      exact ⟨w', by rw [h1, List.nil_append], h2.symm⟩
  | cons a0 a' ih =>
    intro w t d c h hlt
    cases w with
    | nil => simp at hlt
    | cons w0 w' =>
      rw [List.cons_append, List.cons_append] at h
      injection h with h1 h2
      obtain ⟨b, hb1, hb2⟩ := ih w' t d c h2
        (by simp only [List.length_cons] at hlt; omega)
      exact ⟨b, by rw [h1, hb1, List.cons_append], hb2⟩

theorem append_split_ge : ∀ (w a t d : List Char) (c : Char),
    w ++ t = a ++ c :: d → w.length ≤ a.length →
    ∃ a2, a = w ++ a2 ∧ t = a2 ++ c :: d := by
  intro w
  induction w with
  | nil =>
    intro a t d c h _
    exact ⟨a, (List.nil_append a).symm, by rw [← h, List.nil_append]⟩
  | cons w0 w' ih =>
    intro a t d c h hge
    cases a with
    | nil => simp at hge
    | cons a0 a1 =>
      rw [List.cons_append, List.cons_append] at h
      injection h with h1 h2
      obtain ⟨a2, ha1, ha2⟩ := ih a1 t d c h2
        (by simp only [List.length_cons] at hge; omega)
      exact ⟨a2, by rw [← h1, ha1, List.cons_append], ha2⟩

/-- Digest of a whole-word match `\bp\b` on `m ++ rest` (`m` being the matched
characters): the character before is non-word, the character after (the head
of `rest`) is non-word, and the matched text ends in a word character. -/
theorem match_facts {ci : Bool} {p : List Char} (hp : wordEnds p)
    {v : Option Char} {m rest : List Char}
    (hm0 : m ≠ []) (hml : m.length = p.length)
    (h : matchesAt ci true p v (m ++ rest) = true) :
    wordOpt v = false ∧ headNonWord rest ∧ wordOpt m.getLast? = true := by
  obtain ⟨hpne, hlead, hbb, hba⟩ := matchesAt_parts h
  have hppos : 0 < p.length := List.length_pos.mpr hpne
  have hmpos : 0 < m.length := List.length_pos.mpr hm0
  have h0 := ciLeads_getD hlead 0 hppos
  have hg0 : (m ++ rest).getD 0 ' ' = m.getD 0 ' ' :=
    List.getD_append _ _ _ _ hmpos
  rw [hg0] at h0
  have hw0 : wordChar (m.getD 0 ' ') = true := by
    rw [← chEq_word h0]
    exact hp.2.1
  have hiL := ciLeads_getD hlead (p.length - 1) (by omega)
  have hgL : (m ++ rest).getD (p.length - 1) ' ' = m.getD (m.length - 1) ' ' := by
    rw [List.getD_append _ _ _ _ (by omega), hml]
  have hlw : wordChar (m.getD (m.length - 1) ' ') = true := by
    rw [hgL] at hiL
    rw [← chEq_word hiL]
    exact hp.2.2
  have hmlast : m.getLast? = some (m.getD (m.length - 1) ' ') := getLast?_getD m hm0
  have htk : (m ++ rest).take p.length = m := by
    rw [← hml]
    exact List.take_left m rest
  have hdr : (m ++ rest).drop p.length = rest := by
    rw [← hml]
    exact List.drop_left m rest
  refine ⟨?_, ?_, ?_⟩
  · rw [bdry_true_iff] at hbb
    have hh : (m ++ rest).head? = some (m.getD 0 ' ') := by
      rw [head?_getD (m ++ rest) (fun hemp => hm0 (List.append_eq_nil.mp hemp).1), hg0]
    rw [hh] at hbb
    cases hv : wordOpt v with
    | false => rfl
    | true =>
      exfalso
      apply hbb
      rw [hv]
      show true = wordChar (m.getD 0 ' ')
      rw [hw0]
  · rw [htk, hdr, bdry_true_iff] at hba
    intro cch hc
    rw [hmlast, hc] at hba
    cases hcw : wordChar cch with
    | false => rfl
    | true =>
      exfalso
      apply hba
      show wordChar (m.getD (m.length - 1) ' ') = wordChar cch
      rw [hlw, hcw]
  · rw [hmlast]
    show wordChar (m.getD (m.length - 1) ' ') = true
    exact hlw

/-- A `\b`-anchored pattern starting with a word character cannot match at a
position whose first character is non-word, so a pass leaves such a head
character in place. -/
theorem goHead {ci : Bool} {p rp : List Char} (hp : wordEnds p)
    {s : List Char} (hs : headNonWord s) (prev : Option Char) :
    (replaceAllGo ci true p rp 0 prev s).head? = s.head? := by
  cases s with
  | nil => rfl
  | cons c cs =>
    have hnm : matchesAt ci true p prev (c :: cs) = false := by
      cases hmt : matchesAt ci true p prev (c :: cs) with
      | false => rfl
      | true =>
        exfalso
        obtain ⟨hpne, hlead, _, _⟩ := matchesAt_parts hmt
        have h0 := ciLeads_getD hlead 0 (List.length_pos.mpr hpne)
        have hc0 : (c :: cs).getD 0 ' ' = c := rfl
        rw [hc0] at h0
        have hcw : wordChar c = true := by
          rw [← chEq_word h0]
          exact hp.2.1
        rw [hs c rfl] at hcw
        exact Bool.false_ne_true hcw
    rw [go_zero_cons, if_neg (by simp [hnm])]
    rfl

/-- A pass over a string that is already clean for the pattern is the
identity. -/
theorem go_of_clean {ci : Bool} {p rp : List Char} :
    ∀ (s : List Char) (prev : Option Char),
      cleanFrom ci true p prev s = true →
      replaceAllGo ci true p rp 0 prev s = s := by
  intro s
  induction s with
  | nil => intro prev _; rfl
  | cons c cs ih =>
    intro prev h
    rw [cleanFrom, Bool.and_eq_true, Bool.not_eq_true'] at h
    rw [go_zero_cons, if_neg (by simp [h.1]), ih (some c) h.2]

/-- At a position of the untouched prefix, replacing the old suffix by
`rp ++ t2` cannot create a whole-word match of `q`: either the match window
lies inside the untouched characters (and the old scan already refused it), or
it reaches the inserted block and realizes an alignment that `safeCross`
forbids. -/
theorem noMatchCross {ci : Bool} {q rp : List Char}
    (hq : wordEnds q) (hrp : wordEnds rp) (hsafe : safeCross ci rp q)
    {t2 : List Char} (htailnw : headNonWord t2)
    (c : Char) (b : List Char) (v : Option Char) (torig : List Char)
    (hlastnw : wordChar ((c :: b).getD b.length ' ') = false)
    (hold : matchesAt ci true q v (c :: (b ++ torig)) = false) :
    matchesAt ci true q v (c :: (b ++ (rp ++ t2))) = false := by
  by_cases hcase : q.length + 1 ≤ b.length + 1
  · have htk : (c :: (b ++ (rp ++ t2))).take (q.length + 1) =
        (c :: (b ++ torig)).take (q.length + 1) := by
      have e1 : c :: (b ++ (rp ++ t2)) = (c :: b) ++ (rp ++ t2) := rfl
      have e2 : c :: (b ++ torig) = (c :: b) ++ torig := rfl
      rw [e1, e2,
        List.take_append_of_le_length (by simp only [List.length_cons]; omega),
        List.take_append_of_le_length (by simp only [List.length_cons]; omega)]
    rw [matchesAt_take_eq htk]
    exact hold
  · push_neg at hcase
    cases hmt : matchesAt ci true q v (c :: (b ++ (rp ++ t2))) with
    | false => rfl
    | true =>
      exfalso
      obtain ⟨hqne, hlead, hbb, hba⟩ := matchesAt_parts hmt
      have hqpos : 0 < q.length := List.length_pos.mpr hqne
      have hlen := ciLeads_length hlead
      have hlentot : (c :: (b ++ (rp ++ t2))).length =
          b.length + 1 + rp.length + t2.length := by
        simp only [List.length_cons, List.length_append]
        omega
      have hchars := ciLeads_getD hlead
      have hgetD_b : ∀ i, i < b.length + 1 →
          (c :: (b ++ (rp ++ t2))).getD i ' ' = (c :: b).getD i ' ' := by
        intro i hi
        have e1 : c :: (b ++ (rp ++ t2)) = (c :: b) ++ (rp ++ t2) := rfl
        rw [e1, List.getD_append _ _ _ _ (by simp only [List.length_cons]; omega)]
      have hgetD_rp : ∀ i, b.length + 1 ≤ i → i - (b.length + 1) < rp.length →
          (c :: (b ++ (rp ++ t2))).getD i ' ' = rp.getD (i - (b.length + 1)) ' ' := by
        intro i hi1 hi2
        have e1 : c :: (b ++ (rp ++ t2)) = (c :: b) ++ (rp ++ t2) := rfl
        rw [e1, List.getD_append_right _ _ _ _ (by simp only [List.length_cons]; omega),
          List.getD_append _ _ _ _ (by simp only [List.length_cons]; omega)]
        simp only [List.length_cons]
      have hqL1 : wordChar (q.getD b.length ' ') = false := by
        have hcb := hchars b.length (by omega)
        rw [hgetD_b b.length (by omega)] at hcb
        rw [chEq_word hcb]
        exact hlastnw
      by_cases hLq : b.length + 1 = q.length
      · have hql : wordChar (q.getD (q.length - 1) ' ') = true := hq.2.2
        rw [show q.length - 1 = b.length from by omega] at hql
        rw [hql] at hqL1
        exact absurd hqL1 (by simp)
      · have hLlt : b.length + 1 < q.length := by omega
        apply hsafe.1 (b.length + 1) hLlt (by omega)
        refine ⟨hqL1, ?_, ?_, ?_⟩
        · intro i hi hLi hir
          have hcb := hchars i hi
          rw [hgetD_rp i hLi hir] at hcb
          exact hcb
        · intro hlt3
          rw [bdry_true_iff] at hba
          have hlen2 : q.length < (c :: (b ++ (rp ++ t2))).length := by
            rw [hlentot]
            omega
          have htake := take_getLast? (c :: (b ++ (rp ++ t2))) (q.length - 1) (by omega)
          rw [show q.length - 1 + 1 = q.length from by omega] at htake
          have hdrop := drop_head? (c :: (b ++ (rp ++ t2))) q.length hlen2
          rw [htake, hdrop] at hba
          have hw1 : wordChar ((c :: (b ++ (rp ++ t2))).getD (q.length - 1) ' ') = true := by
            have hcb := hchars (q.length - 1) (by omega)
            rw [← chEq_word hcb]
            exact hq.2.2
          have hg : (c :: (b ++ (rp ++ t2))).getD q.length ' ' =
              rp.getD (q.length - (b.length + 1)) ' ' :=
            hgetD_rp q.length (by omega) (by omega)
          rw [hg] at hba
          cases hx : wordChar (rp.getD (q.length - (b.length + 1)) ' ') with
          | false => rfl
          | true =>
            exfalso
            apply hba
            show wordChar _ = wordChar _
            rw [hw1, hx]
        · intro hlt4
          have hi0 : b.length + 1 + rp.length < q.length := by omega
          have hcb := hchars (b.length + 1 + rp.length) hi0
          have ht2ne : t2 ≠ [] := by
            intro h0
            subst h0
            rw [hlentot] at hlen
            simp only [List.length_nil] at hlen
            omega
          have hg : (c :: (b ++ (rp ++ t2))).getD (b.length + 1 + rp.length) ' ' =
              t2.getD 0 ' ' := by
            have e1 : c :: (b ++ (rp ++ t2)) = (c :: b) ++ (rp ++ t2) := rfl
            rw [e1,
              List.getD_append_right _ _ _ _ (by simp only [List.length_cons]; omega),
              List.getD_append_right _ _ _ _ (by simp only [List.length_cons]; omega)]
            congr 1
            simp only [List.length_cons]
            omega
          rw [hg] at hcb
          have hnw : wordChar (t2.getD 0 ' ') = false := htailnw _ (head?_getD t2 ht2ne)
          rw [chEq_word hcb]
          exact hnw

/-- Gluing step: a string splits as prefix plus tail; it is clean when no
match starts at a prefix position and the tail is clean from the last prefix
character. -/
theorem cleanAssemble {ci : Bool} {q w t : List Char} {prev : Option Char}
    (hw : ∀ a c b, w = a ++ c :: b →
      matchesAt ci true q (lastOpt a prev) (c :: (b ++ t)) = false)
    (ht : cleanFrom ci true q (lastOpt w prev) t = true) :
    cleanFrom ci true q prev (w ++ t) = true := by
  apply cleanFrom_build
  intro a c d had
  by_cases hlt : a.length < w.length
  · obtain ⟨b, hb1, hb2⟩ := append_split_lt a w t d c had hlt
    rw [hb2]
    exact hw a c b hb1
  · push_neg at hlt
    obtain ⟨a2, ha1, ha2⟩ := append_split_ge w a t d c had hlt
    have hpos := cleanFrom_position ht a2 c d ha2
    rw [ha1, lastOpt_chain]
    exact hpos

/-- After the first hit of a pass the output is `w ++ rp ++ t2`; this string
is clean for any pattern `q` protected by `safeCross`, provided no `q`-match
started in `w` against the original suffix and `t2` is clean with a non-word
head. -/
theorem passStep {ci : Bool} {q rp : List Char}
    (hq : wordEnds q) (hrp : wordEnds rp) (hsafe : safeCross ci rp q)
    {w t2 : List Char} {prev : Option Char} (torig : List Char)
    (hwlast : wordOpt (lastOpt w prev) = false)
    (htailnw : headNonWord t2)
    (hrec : cleanFrom ci true q rp.getLast? t2 = true)
    (hwq : ∀ a c b, w = a ++ c :: b →
      matchesAt ci true q (lastOpt a prev) (c :: (b ++ torig)) = false) :
    cleanFrom ci true q prev (w ++ (rp ++ t2)) = true := by
  apply cleanAssemble
  · intro a c b hab
    apply noMatchCross hq hrp hsafe htailnw c b (lastOpt a prev) torig
    · have h1 : lastOpt w prev = some ((c :: b).getD b.length ' ') := by
        rw [hab, lastOpt_chain, lastOpt_of_ne (List.cons_ne_nil c b)]
        simp
      rw [h1] at hwlast
      exact hwlast
    · exact hwq a c b hab
  · exact cleanOnRepl hq hrp hsafe htailnw hrec rp 0 (List.drop_zero rp).symm
      (Nat.zero_le _) (lastOpt w prev) (by rw [if_pos rfl]; exact hwlast)

/-- One pass of a word-edged substitution whose replacement satisfies
`safeCross` against its own pattern leaves a string with no remaining
occurrence of the pattern. -/
theorem selfClean {ci : Bool} {p rp : List Char}
    (hp : wordEnds p) (hrp : wordEnds rp) (hsafe : safeCross ci rp p) :
    ∀ (n : Nat) (s : List Char), s.length ≤ n → ∀ (prev : Option Char),
      cleanFrom ci true p prev (replaceAllGo ci true p rp 0 prev s) = true := by
  intro n
  induction n with
  | zero =>
    intro s hs prev
    have hnil : s = [] := List.length_eq_zero.mp (by omega)
    subst hnil
    rfl
  | succ n ih =>
    intro s hs prev
    rcases go_decomp ci p rp s prev with ⟨h1, h2⟩ |
      ⟨w, m, rest, hseq, hm0, hml, hmm, hwpos, hout⟩
    · rw [h1]
      exact h2
    · rw [hout, List.append_assoc]
      obtain ⟨hwlast, hrestnw, hmlast⟩ := match_facts hp hm0 hml hmm
      have hlen_s : s.length = w.length + m.length + rest.length := by
        rw [hseq, List.length_append, List.length_append]
      have hm1 : 0 < m.length := List.length_pos.mpr hm0
      have hrec0 := ih rest (by omega) m.getLast?
      have hrp_last : wordOpt rp.getLast? = true := by
        rw [getLast?_getD rp hrp.1]
        show wordChar _ = true
        exact hrp.2.2
      have hprev_eq : wordOpt m.getLast? = wordOpt rp.getLast? := by
        rw [hmlast, hrp_last]
      have hrec : cleanFrom ci true p rp.getLast?
          (replaceAllGo ci true p rp 0 m.getLast? rest) = true := by
        rw [← cleanFrom_congr_prev hprev_eq]
        exact hrec0
      have htailnw : headNonWord (replaceAllGo ci true p rp 0 m.getLast? rest) := by
        intro cch hcc
        rw [goHead hp hrestnw m.getLast?] at hcc
        exact hrestnw cch hcc
      refine passStep hp hrp hsafe (m ++ rest) hwlast htailnw hrec ?_
      intro a c b hab
      have hcb := hwpos a c b hab
      rwa [List.append_assoc] at hcb

/-- One pass of a word-edged substitution preserves the absence of any other
pattern `q` protected by `safeCross` against the inserted replacement. -/
theorem crossPreserve {ci : Bool} {p rp q : List Char}
    (hp : wordEnds p) (hrp : wordEnds rp) (hq : wordEnds q)
    (hsafe : safeCross ci rp q) :
    ∀ (n : Nat) (s : List Char), s.length ≤ n → ∀ (prev : Option Char),
      cleanFrom ci true q prev s = true →
      cleanFrom ci true q prev (replaceAllGo ci true p rp 0 prev s) = true := by
  intro n
  induction n with
  | zero =>
    intro s hs prev hcl
    have hnil : s = [] := List.length_eq_zero.mp (by omega)
    subst hnil
    rfl
  | succ n ih =>
    intro s hs prev hcl
    rcases go_decomp ci p rp s prev with ⟨h1, _⟩ |
      ⟨w, m, rest, hseq, hm0, hml, hmm, hwpos, hout⟩
    · rw [h1]
      exact hcl
    · rw [hout, List.append_assoc]
      obtain ⟨hwlast, hrestnw, hmlast⟩ := match_facts hp hm0 hml hmm
      have hlen_s : s.length = w.length + m.length + rest.length := by
        rw [hseq, List.length_append, List.length_append]
      have hm1 : 0 < m.length := List.length_pos.mpr hm0
      have hrest_clean : cleanFrom ci true q m.getLast? rest = true := by
        have hcl2 : cleanFrom ci true q prev ((w ++ m) ++ rest) = true := by
          rw [← hseq]
          exact hcl
        have h2 := cleanFrom_append_right (w ++ m) rest hcl2
        rw [lastOpt_append w m prev hm0] at h2
        exact h2
      have hrec0 := ih rest (by omega) m.getLast? hrest_clean
      have hrp_last : wordOpt rp.getLast? = true := by
        rw [getLast?_getD rp hrp.1]
        show wordChar _ = true
        exact hrp.2.2
      have hprev_eq : wordOpt m.getLast? = wordOpt rp.getLast? := by
        rw [hmlast, hrp_last]
      have hrec : cleanFrom ci true q rp.getLast?
          (replaceAllGo ci true p rp 0 m.getLast? rest) = true := by
        rw [← cleanFrom_congr_prev hprev_eq]
        exact hrec0
      have htailnw : headNonWord (replaceAllGo ci true p rp 0 m.getLast? rest) := by
        intro cch hcc
        rw [goHead hp hrestnw m.getLast?] at hcc
        exact hrestnw cch hcc
      refine passStep hq hrp hsafe (m ++ rest) hwlast htailnw hrec ?_
      intro a c b hab
      apply cleanFrom_position hcl a c (b ++ (m ++ rest))
      rw [hseq, hab]
      simp [List.append_assoc]

/-- Running the remaining chain keeps a string clean for a pattern `q` that is
`safeCross`-protected against every replacement of the chain. -/
theorem applySubs_preserve_clean {q : List Char} (hq : wordEnds q) :
    ∀ (subs : List (List Char × List Char)),
      (∀ pr ∈ subs, wordEnds pr.1 ∧ wordEnds pr.2 ∧ safeCross true pr.2 q) →
      ∀ s, cleanFrom true true q none s = true →
        cleanFrom true true q none (applySubs subs s) = true := by
  intro subs
  induction subs with
  | nil =>
    intro _ s h
    exact h
  | cons pr subs2 ih =>
    intro hcond s h
    show cleanFrom true true q none (applySubs subs2 (replaceAll true true pr.1 pr.2 s)) = true
    apply ih (fun pr2 h2 => hcond pr2 (List.mem_cons_of_mem pr h2))
    obtain ⟨hp1, hp2, hp3⟩ := hcond pr (List.mem_cons_self pr subs2)
    exact crossPreserve hp1 hp2 hq hp3 s.length s (le_refl _) none h

/-- After one run of a good chain, the result is clean for every pattern of
the chain. -/
theorem applySubs_clean_each :
    ∀ (subs : List (List Char × List Char)), tableGood subs →
      ∀ s, ∀ qr ∈ subs, cleanFrom true true qr.1 none (applySubs subs s) = true := by
  intro subs
  induction subs with
  | nil =>
    intro _ s qr hqr
    exact absurd hqr (List.not_mem_nil qr)
  | cons pr subs2 ih =>
    intro hcond s qr hqr
    obtain ⟨hW, hS⟩ := hcond
    show cleanFrom true true qr.1 none (applySubs subs2 (replaceAll true true pr.1 pr.2 s)) = true
    rcases List.mem_cons.mp hqr with heq | hmem
    · subst heq
      have hw := hW qr (List.mem_cons_self qr subs2)
      have h0 : cleanFrom true true qr.1 none (replaceAll true true qr.1 qr.2 s) = true :=
        selfClean hw.1 hw.2 (hS qr (List.mem_cons_self qr subs2) qr (List.mem_cons_self qr subs2))
          s.length s (le_refl _) none
      exact applySubs_preserve_clean hw.1 subs2
        (fun pr2 h2 => ⟨(hW pr2 (List.mem_cons_of_mem qr h2)).1,
          (hW pr2 (List.mem_cons_of_mem qr h2)).2,
          hS pr2 (List.mem_cons_of_mem qr h2) qr (List.mem_cons_self qr subs2)⟩)
        _ h0
    · exact ih ⟨fun pr2 h2 => hW pr2 (List.mem_cons_of_mem pr h2),
        fun pr2 h2 qr2 hq2 =>
          hS pr2 (List.mem_cons_of_mem pr h2) qr2 (List.mem_cons_of_mem pr hq2)⟩
        (replaceAll true true pr.1 pr.2 s) qr hmem

/-- A chain run is the identity on a string already clean for every pattern of
the chain. -/
theorem applySubs_fixed :
    ∀ (subs : List (List Char × List Char)) (s : List Char),
      (∀ qr ∈ subs, cleanFrom true true qr.1 none s = true) →
      applySubs subs s = s := by
  intro subs
  induction subs with
  | nil =>
    intro s _
    rfl
  | cons pr subs2 ih =>
    intro s h
    have h0 : replaceAll true true pr.1 pr.2 s = s :=
      go_of_clean s none (h pr (List.mem_cons_self pr subs2))
    show applySubs subs2 (replaceAll true true pr.1 pr.2 s) = s
    rw [h0]
    exact ih s (fun qr hqr => h qr (List.mem_cons_of_mem pr hqr))

/-- A good chain is idempotent. -/
theorem applySubs_idem (subs : List (List Char × List Char))
    (hcond : tableGood subs) (x : List Char) :
    applySubs subs (applySubs subs x) = applySubs subs x :=
  applySubs_fixed subs _ (fun qr hqr => applySubs_clean_each subs hcond x qr hqr)

/-- C4: `makeFormal` and `makeCasual` are idempotent: every pattern of each
substitution table is eliminated by its own pass, and no later replacement of
the chain can recreate an occurrence of an earlier pattern, so a second run of
either transform returns its input unchanged. -/
theorem claim_C4_idempotent (x : List Char) :
    makeFormal (makeFormal x) = makeFormal x ∧
    makeCasual (makeCasual x) = makeCasual x :=
  ⟨applySubs_idem formalSubs (by decide) x,
   applySubs_idem casualSubs (by decide) x⟩
